import Mathlib

/-!
parity-runner: the chain proxy handler and the logging middleware

A shallow embedding of

* `src/cmd/chain/chain.go` — the handler registered by `Run`, which reads a JSON
  object body, sets `creator_id`, re-serialises it and forwards the request to the
  configured server, relaying the answer;
* `src/internal/api/middleware/logging.go` — `Logging` and its `responseWriter`.

Behaviour of the Go standard library that the handler relies on (`strings.TrimPrefix`,
`textproto.CanonicalMIMEHeaderKey`, `http.Header`, `http.ResponseWriter`,
`encoding/json`, `strconv`) is modelled from its documentation; what depends on the
outside world (`json.Marshal` failing, `http.NewRequest` failing, the upstream
answering) is a parameter of the model.
-/

namespace ParityRunner

/-! ## Definitions -/

/-- Go `strings.TrimPrefix(s, prefix)`: `s` without the leading `prefix`, or `s`
itself when it does not start with `prefix`. -/
def TrimPrefix (s pre : String) : String :=
  if pre.data.isPrefixOf s.data then ⟨s.data.drop pre.data.length⟩ else s

/-- Go `http.Header` (`map[string][]string`).  The list order stands for the order in
which a `range` loop happens to visit the keys. -/
abbrev Header := List (String × List String)

/-- The bytes `textproto` accepts in a header field name (RFC 7230 token characters). -/
def validHeaderFieldByte (c : Char) : Bool :=
  c.isAlphanum || "!#$%&*+-.^_|~".data.contains c || c == Char.ofNat 39 || c == Char.ofNat 96

/-- The rewriting loop of `canonicalMIMEHeaderKey`: upper-case the first letter and
every letter after a hyphen, lower-case the others. -/
def canonLoop : Bool → List Char → List Char
  | _, [] => []
  | upper, c :: cs =>
    let c1 := if upper && c.isLower then c.toUpper
              else if !upper && c.isUpper then c.toLower else c
    c1 :: canonLoop (c1 == '-') cs

/-- Go `textproto.CanonicalMIMEHeaderKey`: a key holding a byte that is not a valid
field byte is returned unchanged. -/
def CanonicalMIMEHeaderKey (s : String) : String :=
  if s.data.all validHeaderFieldByte then ⟨canonLoop true s.data⟩ else s

namespace Header

/-- Map read `h[k]`: the zero value (nil slice) when the key is absent. -/
def raw (h : Header) (k : String) : List String := (h.lookup k).getD []

/-- Map write `h[k] = vs`. -/
def put : Header → String → List String → Header
  | [], k, vs => [(k, vs)]
  | (k0, vs0) :: t, k, vs => if k0 = k then (k, vs) :: t else (k0, vs0) :: put t k vs

/-- Go `Header.Add`: append `value` to the values of the canonical form of `key`. -/
def Add (h : Header) (key value : String) : Header :=
  put h (CanonicalMIMEHeaderKey key) (raw h (CanonicalMIMEHeaderKey key) ++ [value])

/-- Go `Header.Set`: the canonical form of `key` gets the single value `value`. -/
def Set (h : Header) (key value : String) : Header :=
  put h (CanonicalMIMEHeaderKey key) [value]

/-- Go `Header.Values`: all values of the canonical form of `key`. -/
def Values (h : Header) (key : String) : List String := raw h (CanonicalMIMEHeaderKey key)

/-- The keys present in the map. -/
def keys (h : Header) : List String := h.map Prod.fst

/-- The loop `for header, values := range src { for _, value := range values {
dst.Add(header, value) } }` of the handler. -/
def copyInto (dst : Header) (src : Header) : Header :=
  src.foldl (fun d kv => kv.2.foldl (fun d1 v => Add d1 kv.1 v) d) dst

end Header

/-- A finite `float64`: the value `mant * 2 ^ exp`, negated when `neg`.  Normal values
have `2^52 ≤ mant < 2^53`; subnormal values and zero have `exp = -1074`. -/
structure F64 where
  neg : Bool
  mant : Nat
  exp : Int
  deriving DecidableEq

/-- The representation is the one of a `float64`: a mantissa of at most 53 bits, an
exponent in range, and the least exponent for a mantissa of fewer than 53 bits. -/
def F64.Canonical (f : F64) : Prop :=
  f.mant < 2 ^ 53 ∧ -1074 ≤ f.exp ∧ f.exp ≤ 971 ∧ (f.mant < 2 ^ 52 → f.exp = -1074)

/-- The power `2 ^ k` for an integer `k`, `1` when `k` is negative. -/
def pow2 (k : Int) : Nat := 1 <<< k.toNat

/-- The power `10 ^ k` for an integer `k`, `1` when `k` is negative. -/
def pow10 (k : Int) : Nat := 10 ^ k.toNat

/-- The binary logarithm rounded down, by repeated halving (`0` for `0`). -/
def log2Fuel : Nat → Nat → Nat
  | 0, _ => 0
  | fuel + 1, n => if n < 2 then 0 else log2Fuel fuel (n / 2) + 1

/-- The binary logarithm of `n` rounded down. -/
def log2 (n : Nat) : Nat := log2Fuel n n

/-- The binary logarithm of the positive ratio `n / d` rounded down. -/
def log2Ratio (n d : Nat) : Int :=
  let t : Int := (log2 n : Int) - (log2 d : Int)
  if d * pow2 t ≤ n * pow2 (-t) then t else t - 1

/-- The quotient `num / den` rounded to the nearest natural number, ties to the even
one. -/
def roundQuot (num den : Nat) : Nat :=
  let q0 := num / den
  let r := num % den
  if den < 2 * r ∨ (2 * r = den ∧ q0 % 2 = 1) then q0 + 1 else q0

/-- The `float64` nearest to the positive ratio `n / d`, with the given sign, ties to
the even mantissa; `none` when the ratio rounds to infinity. -/
def roundRatio (neg : Bool) (n d : Nat) : Option F64 :=
  let e : Int := max (log2Ratio n d - 52) (-1074)
  let q := roundQuot (n * pow2 (-e)) (d * pow2 e)
  let qe : Nat × Int := if q = 2 ^ 53 then (2 ^ 52, e + 1) else (q, e)
  if 971 < qe.2 then none else some ⟨neg, qe.1, qe.2⟩

/-- Go `strconv.ParseFloat(s, 64)` on the decimal `m * 10 ^ e10` with the given sign: the
nearest `float64`, ties to the even mantissa; `none` is the range error of a value
that rounds to infinity. -/
def parseFloat (neg : Bool) (m : Nat) (e10 : Int) : Option F64 :=
  if m = 0 then some ⟨neg, 0, -1074⟩
  else roundRatio neg (m * pow10 e10) (pow10 (-e10))

/-- The decimal digits of a natural number, most significant first. -/
def natDigits (n : Nat) : List Char := Nat.toDigits 10 n

/-- Drop the trailing zeros of `d * 10 ^ e`. -/
def stripZeros : Nat → Nat → Int → Nat × Int
  | 0, d, e => (d, e)
  | fuel + 1, d, e => if d ≠ 0 ∧ d % 10 = 0 then stripZeros fuel (d / 10) (e + 1) else (d, e)

/-- The position of the decimal point of a positive value `mant * 2 ^ exp`: the `dp`
with `10 ^ (dp - 1) ≤ value < 10 ^ dp`. -/
def decimalPoint (mant : Nat) (exp : Int) : Int :=
  let l : Int := (log2 mant : Int) + exp
  let est : Int := (l * 30103) / 100000
  -- value < 10 ^ k
  let below : Int → Bool := fun k =>
    decide (mant * pow2 exp * pow10 (-k) < pow10 k * pow2 (-exp))
  if below (est - 1) then est - 1
  else if below est then est
  else if below (est + 1) then est + 1
  else est + 2

/-- The exact decimal expansion of `mant * 2 ^ exp`, as a digit value and a decimal
exponent. -/
def exactDecimal (mant : Nat) (exp : Int) : Nat × Int :=
  if 0 ≤ exp then (mant * pow2 exp, 0) else (mant * 5 ^ (-exp).toNat, exp)

/-- The shortest decimal that `parseFloat` reads back as `f`, for a non-zero `f`, as a
digit value and a decimal exponent, trying `k`, `k + 1`, ... digits; among the
shortest ones the one nearest to `f` (`strconv.FormatFloat` with precision `-1`).
The search is over the 17 digit counts that are enough for a `float64`; it ends with
the exact expansion. -/
def shortestDecimal (f : F64) : Nat → Nat → Nat × Int
  | 0, _ => exactDecimal f.mant f.exp
  | fuel + 1, k =>
    let dp := decimalPoint f.mant f.exp
    let num := f.mant * pow2 f.exp * pow10 ((k : Int) - dp)
    let den := pow2 (-f.exp) * pow10 (dp - (k : Int))
    let lo := num / den
    let r := num % den
    let okdown := parseFloat f.neg lo (dp - k) == some f
    let okup := parseFloat f.neg (lo + 1) (dp - k) == some f
    if okdown && okup then
      if 2 * r < den ∨ (2 * r = den ∧ lo % 2 = 0) then (lo, dp - k) else (lo + 1, dp - k)
    else if okdown then (lo, dp - k)
    else if okup then (lo + 1, dp - k)
    else shortestDecimal f fuel (k + 1)

/-- The exponent of the `e` format as `encoding/json` leaves it: a sign and the digits,
the leading zero of a two-digit form dropped. -/
def fmtExponent (e : Int) : List Char :=
  (if e < 0 then '-' else '+') :: natDigits e.natAbs

/-- How `encoding/json` writes a `float64`: the shortest decimal that reads back as the
value, in plain notation when `1e-6 ≤ |f| < 1e21` and in exponent notation otherwise. -/
def formatFloat (f : F64) : List Char :=
  let sign : List Char := if f.neg then ['-'] else []
  if f.mant = 0 then sign ++ ['0']
  else
    let de := shortestDecimal f 17 1
    let sd := stripZeros 20 de.1 de.2
    let ds := natDigits sd.1
    let nd : Int := ds.length
    let dp : Int := nd + sd.2
    -- |f| < 1e-6 or |f| ≥ 1e21, compared as float64 values
    let small := (parseFloat false 1 (-6)).any fun g =>
      decide (f.mant * pow2 (f.exp + 1074) < g.mant * pow2 (g.exp + 1074))
    let large := decide (pow10 21 * pow2 (-f.exp) ≤ f.mant * pow2 f.exp)
    if small || large then
      sign ++ ds.take 1 ++ (if 1 < ds.length then '.' :: ds.drop 1 else []) ++
        'e' :: fmtExponent (dp - 1)
    else
      let ipart : List Char :=
        if 0 < dp then ds.take dp.toNat ++ List.replicate (dp.toNat - ds.length) '0' else ['0']
      let fpart : List Char :=
        if dp < nd then '.' :: (List.replicate (-dp).toNat '0' ++ ds.drop dp.toNat) else []
      sign ++ ipart ++ fpart

/-- The values `encoding/json` stores in an `interface{}`: `nil`, `bool`, `float64`,
`string`, `[]interface{}` and `map[string]interface{}`. -/
inductive Json where
  | null
  | bool (b : Bool)
  | num (f : F64)
  | str (s : String)
  | arr (xs : List Json)
  | obj (kvs : List (String × Json))

/-- Go `map[string]interface{}`. -/
abbrev GoMap := List (String × Json)

/-- Map write `m[k] = v` on a map kept as an association list. -/
def mapSet {β : Type} : List (String × β) → String → β → List (String × β)
  | [], k, v => [(k, v)]
  | (k0, v0) :: t, k, v => if k0 = k then (k, v) :: t else (k0, v0) :: mapSet t k v

/-- Map read `m[k]` with the presence flag. -/
def mapGet {β : Type} (m : List (String × β)) (k : String) : Option β := m.lookup k

/-- Why a decode fails.  `fuel` is an artefact of the model and is shown never to
be returned by `readValue`. -/
inductive JsonErr where
  | eof
  | syntaxErr
  | depth
  | range
  | typeErr
  | fuel
  deriving DecidableEq, Repr

/-- JSON insignificant whitespace (`isSpace` of the scanner). -/
def isSpace (c : Char) : Bool := c == ' ' || c == '\t' || c == '\r' || c == '\n'

/-- Drop leading whitespace. -/
def skipWs : List Char → List Char
  | [] => []
  | c :: cs => if isSpace c then skipWs cs else c :: cs

/-- Value of a hexadecimal digit. -/
def hexVal (c : Char) : Option Nat :=
  if c.isDigit then some (c.toNat - 48)
  else if 'a'.toNat ≤ c.toNat ∧ c.toNat ≤ 'f'.toNat then some (c.toNat - 87)
  else if 'A'.toNat ≤ c.toNat ∧ c.toNat ≤ 'F'.toNat then some (c.toNat - 55)
  else none

/-- Go `getu4` on the text after the backslash: `uXXXX` gives the code unit. -/
def getu4 : List Char → Option Nat
  | 'u' :: a :: b :: c :: d :: _ =>
    match hexVal a, hexVal b, hexVal c, hexVal d with
    | some x, some y, some z, some w => some (((x * 16 + y) * 16 + z) * 16 + w)
    | _, _, _, _ => none
  | _ => none

/-- The code unit is a UTF-16 surrogate. -/
def isSurrogate (r : Nat) : Bool := 0xd800 ≤ r && r < 0xe000

/-- Go `utf16.DecodeRune`; `none` stands for the replacement character result. -/
def decodeSurrogates (r1 r2 : Nat) : Option Nat :=
  if 0xd800 ≤ r1 ∧ r1 < 0xdc00 ∧ 0xdc00 ≤ r2 ∧ r2 < 0xe000 then
    some ((r1 - 0xd800) * 1024 + (r2 - 0xdc00) + 0x10000)
  else none

/-- One escape sequence, read after its backslash: the character it stands for and
the text after it.  A lone or mismatched surrogate gives the replacement character. -/
def readEscape (cs : List Char) : Except JsonErr (Char × List Char) :=
  match cs with
  | [] => .error .eof
  | e :: cs1 =>
    if e == '"' || e == '\\' || e == '/' then .ok (e, cs1)
    else if e == 'b' then .ok (Char.ofNat 8, cs1)
    else if e == 'f' then .ok (Char.ofNat 12, cs1)
    else if e == 'n' then .ok ('\n', cs1)
    else if e == 'r' then .ok ('\r', cs1)
    else if e == 't' then .ok ('\t', cs1)
    else if e == 'u' then
      match getu4 cs with
      | none => if cs.length < 5 then .error .eof else .error .syntaxErr
      | some rr =>
        if isSurrogate rr then
          match (match cs.drop 5 with
                 | '\\' :: t => (getu4 t).bind (decodeSurrogates rr)
                 | _ => none) with
          | some dec => .ok (Char.ofNat dec, cs.drop 11)
          | none => .ok (Char.ofNat 0xfffd, cs.drop 5)
        else .ok (Char.ofNat rr, cs.drop 5)
    else .error .syntaxErr

/-- The body of a string literal after its opening quote: the decoded characters and
the text after the closing quote. -/
def lexString : Nat → List Char → List Char → Except JsonErr (String × List Char)
  | 0, _, _ => .error .fuel
  | _ + 1, [], _ => .error .eof
  | n + 1, c :: cs, acc =>
    if c == '"' then .ok (⟨acc.reverse⟩, cs)
    else if c == '\\' then
      match readEscape cs with
      | .error e => .error e
      | .ok (ch, rest) => lexString n rest (ch :: acc)
    else if c.toNat < 0x20 then .error .syntaxErr
    else lexString n cs (c :: acc)

/-- Split off the leading decimal digits. -/
def takeDigits : List Char → List Char × List Char
  | [] => ([], [])
  | c :: cs => if c.isDigit then ((takeDigits cs).1.cons c, (takeDigits cs).2) else ([], c :: cs)

/-- Value of a run of decimal digits. -/
def digitsVal (ds : List Char) : Nat := ds.foldl (fun a c => a * 10 + (c.toNat - 48)) 0

/-- The integer part of a number: `0`, or a non-zero digit and the digits after it. -/
def lexInt : List Char → Except JsonErr (List Char × List Char)
  | [] => .error .eof
  | c :: r =>
    if !c.isDigit then .error .syntaxErr
    else if c == '0' then .ok (['0'], r)
    else .ok (c :: (takeDigits r).1, (takeDigits r).2)

/-- The optional fraction of a number, a point and at least one digit. -/
def lexFrac : List Char → Except JsonErr (List Char × List Char)
  | [] => .ok ([], [])
  | c :: r =>
    if c == '.' then
      match r with
      | [] => .error .eof
      | d :: _ =>
        if d.isDigit then .ok ('.' :: (takeDigits r).1, (takeDigits r).2)
        else .error .syntaxErr
    else .ok ([], c :: r)

/-- The optional exponent of a number: `e` or `E`, an optional sign, at least one
digit. -/
def lexExp : List Char → Except JsonErr (List Char × List Char)
  | [] => .ok ([], [])
  | x :: r =>
    if x == 'e' || x == 'E' then
      match r with
      | [] => .error .eof
      | s :: r1 =>
        if s == '+' || s == '-' then
          match r1 with
          | [] => .error .eof
          | d :: _ =>
            if d.isDigit then .ok (x :: s :: (takeDigits r1).1, (takeDigits r1).2)
            else .error .syntaxErr
        else if s.isDigit then .ok (x :: (takeDigits r).1, (takeDigits r).2)
        else .error .syntaxErr
    else .ok ([], x :: r)

/-- The decimal exponent an exponent text stands for. -/
def expValue : List Char → Int
  | [] => 0
  | [_] => 0
  | _ :: s :: ds =>
    if s == '-' then - (digitsVal ds : Int)
    else if s == '+' then (digitsVal ds : Int)
    else (digitsVal (s :: ds) : Int)

/-- The parts of a number literal: the sign, the integer part, the fraction with its
point, the exponent with its letter and sign. -/
structure NumParts where
  neg : Bool
  ip : List Char
  fp : List Char
  ep : List Char

/-- The literal the parts make up. -/
def NumParts.text (p : NumParts) : List Char :=
  (if p.neg then ['-'] else []) ++ p.ip ++ p.fp ++ p.ep

/-- The `float64` the literal stands for, `none` when it is out of range. -/
def NumParts.value (p : NumParts) : Option F64 :=
  parseFloat p.neg (digitsVal (p.ip ++ p.fp.drop 1)) (expValue p.ep - (p.fp.drop 1).length)

/-- The number literal at the head of the text, split into its parts, and the text
after it. -/
def lexNumberParts : List Char → Except JsonErr (NumParts × List Char)
  | [] => .error .eof
  | c :: r =>
    match lexInt (if c == '-' then r else c :: r) with
    | .error e => .error e
    | .ok (ip, r2) =>
      match lexFrac r2 with
      | .error e => .error e
      | .ok (fp, r4) =>
        match lexExp r4 with
        | .error e => .error e
        | .ok (ep, r7) => .ok (⟨c == '-', ip, fp, ep⟩, r7)

/-- A number at the head of the text: its `float64` value and the text after it. -/
def lexNumber (cs : List Char) : Except JsonErr (F64 × List Char) :=
  match lexNumberParts cs with
  | .error e => .error e
  | .ok (p, rest) =>
    match p.value with
    | none => .error .range
    | some f => .ok (f, rest)

/-- What the recursive reader is looking for: a value, the rest of an array after
`[`, or the rest of an object after `{`. -/
inductive Goal where
  | value
  | elems (acc : List Json)
  | members (acc : GoMap)

/-- Nesting limit of the scanner (`maxNestingDepth`). -/
def maxNestingDepth : Nat := 10000

/-- A value that is not an array or an object, at the head `c :: r` of the text: a
string, a number, or one of the literals `true`, `false`, `null`. -/
def parseScalar (c : Char) (r : List Char) : Except JsonErr (Json × List Char) :=
  if c == '"' then
    match lexString (r.length + 1) r [] with
    | .error e => .error e
    | .ok (s, r1) => .ok (.str s, r1)
  else if c == '-' || c.isDigit then
    match lexNumber (c :: r) with
    | .error e => .error e
    | .ok (l, r1) => .ok (.num l, r1)
  else if "true".data.isPrefixOf (c :: r) then .ok (.bool true, r.drop 3)
  else if "false".data.isPrefixOf (c :: r) then .ok (.bool false, r.drop 4)
  else if "null".data.isPrefixOf (c :: r) then .ok (.null, r.drop 3)
  else if (c :: r).isPrefixOf "true".data || (c :: r).isPrefixOf "false".data
          || (c :: r).isPrefixOf "null".data then .error .eof
  else .error .syntaxErr

/-- An object key and the colon after it: the key and the text after the colon. -/
def readKey (cs : List Char) : Except JsonErr (String × List Char) :=
  match skipWs cs with
  | [] => .error .eof
  | q :: r =>
    if q != '"' then .error .syntaxErr
    else match lexString (r.length + 1) r [] with
      | .error e => .error e
      | .ok (k, r1) =>
        match skipWs r1 with
        | [] => .error .eof
        | c :: r2 => if c != ':' then .error .syntaxErr else .ok (k, r2)

/-- The recursive descent over the first JSON value of the text, at nesting depth `d`.
A repeated object key keeps the last value, as a Go map does. -/
def parse : Nat → Nat → Goal → List Char → Except JsonErr (Json × List Char)
  | 0, _, _, _ => .error .fuel
  | n + 1, d, .value, cs =>
    match skipWs cs with
    | [] => .error .eof
    | c :: r =>
      if c == '{' then
        if maxNestingDepth < d + 1 then .error .depth
        else match skipWs r with
          | [] => .error .eof
          | c1 :: r1 => if c1 == '}' then .ok (.obj [], r1) else parse n (d + 1) (.members []) r
      else if c == '[' then
        if maxNestingDepth < d + 1 then .error .depth
        else match skipWs r with
          | [] => .error .eof
          | c1 :: r1 => if c1 == ']' then .ok (.arr [], r1) else parse n (d + 1) (.elems []) r
      else parseScalar c r
  | n + 1, d, .elems acc, cs =>
    match parse n d .value cs with
    | .error e => .error e
    | .ok (v, r) =>
      match skipWs r with
      | [] => .error .eof
      | c :: r1 =>
        if c == ',' then parse n d (.elems (acc ++ [v])) r1
        else if c == ']' then .ok (.arr (acc ++ [v]), r1)
        else .error .syntaxErr
  | n + 1, d, .members acc, cs =>
    match readKey cs with
    | .error e => .error e
    | .ok (k, r2) =>
      match parse n d .value r2 with
      | .error e => .error e
      | .ok (v, r3) =>
        match skipWs r3 with
        | [] => .error .eof
        | c1 :: r4 =>
          if c1 == ',' then parse n d (.members (mapSet acc k v)) r4
          else if c1 == '}' then .ok (.obj (mapSet acc k v), r4)
          else .error .syntaxErr

/-- One call of `(*json.Decoder).Decode` on a fresh decoder over `body`: the first JSON
value of the stream.  The bytes after that value are not examined by this call. -/
def readValue (body : String) : Except JsonErr Json :=
  match parse (2 * body.data.length + 1) 0 .value body.data with
  | .error e => .error e
  | .ok (v, _) => .ok v

/-- Storing a decoded value into `requestData`, a `map[string]interface{}` that starts
out nil: an object allocates the map, JSON `null` leaves the map nil without an
error, any other value is an `UnmarshalTypeError`. -/
def storeMap : Json → Except JsonErr (Option GoMap)
  | .obj kvs => .ok (some kvs)
  | .null => .ok none
  | _ => .error .typeErr

/-- The call `json.NewDecoder(bytes.NewBuffer(body)).Decode(&requestData)`: the error,
or the value of `requestData` afterwards (`none` is the nil map). -/
def decodeBody (body : String) : Except JsonErr (Option GoMap) :=
  match readValue body with
  | .error e => .error e
  | .ok v => storeMap v

/-- Lower-case hexadecimal digit. -/
def hexDigit (n : Nat) : Char := "0123456789abcdef".data.getD n '0'

/-- How the encoder writes one character of a string (HTML escaping on, as
`json.Marshal` has it). -/
def escapeChar (c : Char) : List Char :=
  if c == '"' then ['\\', '"']
  else if c == '\\' then ['\\', '\\']
  else if c == '\n' then ['\\', 'n']
  else if c == '\r' then ['\\', 'r']
  else if c == '\t' then ['\\', 't']
  else if c.toNat == 8 then ['\\', 'b']
  else if c.toNat == 12 then ['\\', 'f']
  else if c.toNat < 0x20 || c == '<' || c == '>' || c == '&' then
    ['\\', 'u', '0', '0', hexDigit (c.toNat / 16), hexDigit (c.toNat % 16)]
  else if c.toNat == 0x2028 then "\\u2028".data
  else if c.toNat == 0x2029 then "\\u2029".data
  else [c]

/-- A quoted string literal. -/
def encodeString (s : String) : List Char :=
  '"' :: (s.data.map escapeChar).flatten ++ ['"']

/-- Lexicographic order of two keys, the order `json.Marshal` sorts map keys in. -/
def keyLt : List Char → List Char → Bool
  | _, [] => false
  | [], _ :: _ => true
  | a :: as, b :: bs => a.toNat < b.toNat || (a.toNat == b.toNat && keyLt as bs)

/-- Insert an entry into a list sorted by key. -/
def insertByKey {β : Type} (kv : String × β) : List (String × β) → List (String × β)
  | [] => [kv]
  | h :: t => if keyLt kv.1.data h.1.data then kv :: h :: t else h :: insertByKey kv t

/-- The entries of a map in key order, the order `json.Marshal` writes them in. -/
def sortByKey {β : Type} (m : List (String × β)) : List (String × β) :=
  m.foldr insertByKey []

/-- One encoded object member, `"key":value`. -/
def encodeMember (kv : String × List Char) : List Char := encodeString kv.1 ++ ':' :: kv.2

mutual
/-- The compact encoding of a value. -/
def Json.encode : Json → List Char
  | .null => "null".data
  | .bool b => if b then "true".data else "false".data
  | .num f => formatFloat f
  | .str s => encodeString s
  | .arr xs => '[' :: [','].intercalate (Json.encodeElems xs) ++ [']']
  | .obj kvs =>
    '{' :: [','].intercalate ((sortByKey (Json.encodeMembers kvs)).map encodeMember) ++ ['}']
/-- The encodings of the elements of an array. -/
def Json.encodeElems : List Json → List (List Char)
  | [] => []
  | x :: t => Json.encode x :: Json.encodeElems t
/-- The keys of an object with the encodings of their values. -/
def Json.encodeMembers : List (String × Json) → List (String × List Char)
  | [] => []
  | (k, v) :: t => (k, Json.encode v) :: Json.encodeMembers t
end

/-- The bytes `json.Marshal(requestData)` produces for a decoded map. -/
def jsonMarshal (m : GoMap) : String := ⟨(Json.obj m).encode⟩

/-- The inbound `*http.Request` as the handler uses it.  `body` is the result of
`io.ReadAll(r.Body)`, `none` when the read returns an error. -/
structure InRequest where
  method : String
  path : String
  rawQuery : String
  header : Header
  body : Option String

/-- The request handed to `client.Do`. -/
structure ProxyReq where
  method : String
  url : String
  header : Header
  body : String
  deriving DecidableEq

/-- The `*http.Response` of the upstream; `body` is what `resp.Body` delivers. -/
structure Response where
  status : Nat
  header : Header
  body : String
  deriving DecidableEq

/-- What the handler cannot decide by itself: whether `json.Marshal` and
`http.NewRequest` return an error, and what `client.Do` returns (`none` is an error). -/
structure World where
  marshal : GoMap → Option String
  newRequestOk : String → String → Bool
  clientDo : ProxyReq → Option Response

/-- One method call on the `http.ResponseWriter`; `headerAdd` and `headerSet` are
calls on the map returned by `Header()`. -/
inductive Call where
  | headerAdd (key value : String)
  | headerSet (key value : String)
  | writeHeader (code : Nat)
  | write (b : String)
  deriving DecidableEq

/-- What one run of the handler does: whether it panicked, the requests it passed to
`client.Do`, and its calls on the `http.ResponseWriter`, both in order. -/
structure Outcome where
  panicked : Bool
  upstream : List ProxyReq
  calls : List Call
  deriving DecidableEq

/-- Go `http.Error(w, msg, code)`. -/
def httpError (msg : String) (code : Nat) : List Call :=
  [.headerSet "Content-Type" "text/plain; charset=utf-8",
   .headerSet "X-Content-Type-Options" "nosniff",
   .writeHeader code,
   .write (msg ++ "\n")]

/-- The target of the forwarded request: `fmt.Sprintf("%s%s", cfg.Runner.ServerURL,
strings.TrimPrefix(r.URL.Path, "/api"))`. -/
def targetURL (serverURL path : String) : String := serverURL ++ TrimPrefix path "/api"

/-- The headers of the forwarded request: the inbound ones added to the empty header
map of the new request, then `X-Device-ID` and `Content-Length` set. -/
def proxyHeader (inbound : Header) (deviceID modifiedBody : String) : Header :=
  Header.Set
    (Header.Set (Header.copyInto [] inbound) "X-Device-ID" deviceID)
    "Content-Length" (toString modifiedBody.utf8ByteSize)

/-- The check `WriteHeader` of the server makes on its argument
(`checkWriteHeaderCode`); it panics with "invalid WriteHeader code" when the check
fails. -/
def checkWriteHeaderCode (code : Nat) : Bool := decide (100 ≤ code) && decide (code ≤ 999)

/-- The relay of the upstream response: copy the headers, `WriteHeader`, `io.Copy`
(one `Write` of the body; none when the body is empty).  A status code that
`WriteHeader` refuses makes that call panic, and nothing is called after it. -/
def relay (resp : Response) : List Call :=
  (resp.header.map fun kv => kv.2.map fun v => Call.headerAdd kv.1 v).flatten
    ++ [.writeHeader resp.status]
    ++ (if !checkWriteHeaderCode resp.status || resp.body = "" then []
        else [.write resp.body])

/-- The function registered with `http.HandleFunc("/", ...)` in `Run`. -/
def handler (W : World) (serverURL deviceID : String) (r : InRequest) : Outcome :=
  match r.body with
  | none => ⟨false, [], httpError "Error reading request body" 500⟩
  | some body =>
    let url := targetURL serverURL r.path
    match decodeBody body with
    | .error _ => ⟨false, [], httpError "Invalid request body" 400⟩
    | .ok none => ⟨true, [], []⟩            -- assignment to entry in nil map
    | .ok (some requestData) =>
      let requestData := mapSet requestData "creator_id" (Json.str deviceID)
      match W.marshal requestData with
      | none => ⟨false, [], httpError "Error processing request" 500⟩
      | some modifiedBody =>
        if !W.newRequestOk r.method url then
          ⟨false, [], httpError "Error creating proxy request" 500⟩
        else
          let proxyReq : ProxyReq :=
            ⟨r.method, url, proxyHeader r.header deviceID modifiedBody, modifiedBody⟩
          match W.clientDo proxyReq with
          | none => ⟨false, [proxyReq], httpError "Error forwarding request" 502⟩
          | some resp => ⟨!checkWriteHeaderCode resp.status, [proxyReq], relay resp⟩

/-- The code is a 1xx code other than 101: `WriteHeader` sends it as an informational
header and the response status stays open. -/
def isInformational (code : Nat) : Bool :=
  decide (100 ≤ code) && decide (code ≤ 199) && code != 101

/-- The server's `bodyAllowedForStatus`: no body with a 1xx, 204 or 304 status. -/
def bodyAllowedForStatus (status : Nat) : Bool :=
  !(decide (100 ≤ status) && decide (status ≤ 199)) && status != 204 && status != 304

/-- The state of the server side `http.ResponseWriter`: the header map, the status
line once it has been sent together with the headers sent with it, the body bytes
written, the informational codes sent, and whether a call has panicked. -/
structure ResponseWriter where
  header : Header
  status : Option Nat
  sentHeader : Header
  body : String
  informational : List Nat
  panicked : Bool
  deriving DecidableEq

namespace ResponseWriter

/-- A fresh writer. -/
def fresh : ResponseWriter := ⟨[], none, [], "", [], false⟩

/-- `WriteHeader(code)`: a call after the status line was sent is superfluous and
changes nothing; otherwise a code outside 100..999 panics, a 1xx code other than 101
is sent as an informational header, and any other code is sent as the status line
with the current headers. -/
def WriteHeader (w : ResponseWriter) (code : Nat) : ResponseWriter :=
  match w.status with
  | some _ => w
  | none =>
    if !checkWriteHeaderCode code then { w with panicked := true }
    else if isInformational code then { w with informational := w.informational ++ [code] }
    else { w with status := some code, sentHeader := w.header }

/-- `Write(b)`: an implicit `WriteHeader(200)` when no status line was sent, then the
bytes, unless the status does not allow a body (`ErrBodyNotAllowed`). -/
def Write (w : ResponseWriter) (b : String) : ResponseWriter :=
  let w1 := w.WriteHeader 200
  if bodyAllowedForStatus (w1.status.getD 200) then { w1 with body := w1.body ++ b } else w1

/-- What `Write(b)` returns: the number of bytes written and whether it is an error. -/
def WriteResult (w : ResponseWriter) (b : String) : Nat × Bool :=
  if bodyAllowedForStatus ((w.WriteHeader 200).status.getD 200) then (b.utf8ByteSize, false)
  else (0, true)

/-- One call; after a panic the handler is gone and nothing more is called. -/
def step (w : ResponseWriter) (c : Call) : ResponseWriter :=
  if w.panicked then w
  else match c with
    | .headerAdd k v => { w with header := Header.Add w.header k v }
    | .headerSet k v => { w with header := Header.Set w.header k v }
    | .writeHeader c => w.WriteHeader c
    | .write b => w.Write b

/-- A sequence of calls. -/
def run (w : ResponseWriter) (cs : List Call) : ResponseWriter := cs.foldl step w

end ResponseWriter

/-- A `World` for the examples: `json.Marshal` returns the serialisation,
`http.NewRequest` accepts a method made of token characters (the URL is taken to
parse), and the upstream answers 201 with `X-Foo: bar`. -/
def exampleWorld : World where
  marshal := fun m => some (jsonMarshal m)
  newRequestOk := fun method _ => method.data.all validHeaderFieldByte
  clientDo := fun _ => some ⟨201, [("X-Foo", ["bar"])], "\x7b\"ok\":true\x7d"⟩

/-- An implementation of the `http.ResponseWriter` interface with state `σ`.
`Header` is the call `Header()` and yields the contents of the map it returns;
`mutate` is a write through that map, which the implementation owns. -/
structure Sink (σ : Type) where
  Header : σ → ParityRunner.Header × σ
  mutate : σ → ParityRunner.Header → σ
  Write : σ → String → (Nat × Bool) × σ
  WriteHeader : σ → Nat → σ

/-- A handler that returns, seen from its `http.ResponseWriter`: each node is one call,
and what the handler does next may depend on what the call returned. -/
inductive Prog where
  | done
  | header (f : Header → Header) (k : Header → Prog)
  | write (b : String) (k : Nat × Bool → Prog)
  | writeHeader (code : Nat) (k : Prog)

/-- Run a handler against a writer. -/
def Prog.run {σ : Type} (S : Sink σ) : Prog → σ → σ
  | .done, s => s
  | .header f k, s => (k (f (S.Header s).1)).run S (S.mutate (S.Header s).2 (f (S.Header s).1))
  | .write b k, s => (k (S.Write s b).1).run S (S.Write s b).2
  | .writeHeader c k, s => k.run S (S.WriteHeader s c)

/-- The `responseWriter` struct of `logging.go`. -/
structure responseWriter (σ : Type) where
  w : σ
  status : Nat

/-- The methods of `*responseWriter` over the wrapped writer: `Header` and `Write`
delegate, `WriteHeader` stores the code and delegates.  The header map is the wrapped
writer's, so a write through it reaches the wrapped writer. -/
def shim {σ : Type} (S : Sink σ) : Sink (responseWriter σ) where
  Header := fun rw => ((S.Header rw.w).1, { rw with w := (S.Header rw.w).2 })
  mutate := fun rw h => { rw with w := S.mutate rw.w h }
  Write := fun rw b => ((S.Write rw.w b).1, { rw with w := (S.Write rw.w b).2 })
  WriteHeader := fun rw statusCode =>
    { w := S.WriteHeader rw.w statusCode, status := statusCode }

/-- A record emitted through the request logger. -/
inductive LogRecord where
  | started (requestID method path query remoteAddr userAgent referer : String)
  | completed (requestID : String) (status : Nat) (duration : Nat)
  deriving DecidableEq

/-- The handler `Logging(next)` returns, run on request `r` (from `remoteAddr`) against
the writer state `s`: the records logged and the writer afterwards.  `requestID` is the
fresh UUID and `duration` the measured time. -/
def Logging {σ : Type} (next : InRequest → Prog) (S : Sink σ) (requestID remoteAddr : String)
    (duration : Nat) (r : InRequest) (s : σ) : List LogRecord × σ :=
  let ww : responseWriter σ := { w := s, status := 200 }
  let ww1 := (next r).run (shim S) ww
  ([.started requestID r.method r.path r.rawQuery remoteAddr
      ((Header.Values r.header "User-Agent").headD "")
      ((Header.Values r.header "Referer").headD ""),
    .completed requestID ww1.status duration], ww1.w)

/-- A call received by a writer. -/
inductive SinkCall where
  | Header
  | Write (b : String)
  | WriteHeader (code : Nat)
  deriving DecidableEq

/-- The writer `S` together with a journal of the calls it receives. -/
def traced {σ : Type} (S : Sink σ) : Sink (σ × List SinkCall) where
  Header := fun s => ((S.Header s.1).1, ((S.Header s.1).2, s.2 ++ [.Header]))
  mutate := fun s h => (S.mutate s.1 h, s.2)
  Write := fun s b => ((S.Write s.1 b).1, ((S.Write s.1 b).2, s.2 ++ [.Write b]))
  WriteHeader := fun s c => (S.WriteHeader s.1 c, s.2 ++ [.WriteHeader c])

/-- The server's writer as a `Sink`. -/
def serverSink : Sink ResponseWriter where
  Header := fun w => (w.header, w)
  mutate := fun w h => { w with header := h }
  Write := fun w b => (w.WriteResult b, w.Write b)
  WriteHeader := fun w c => w.WriteHeader c

/-- A handler that ignores what its calls return, given by the calls it makes. -/
def Prog.ofCalls : List Call → Prog
  | [] => .done
  | .headerAdd k v :: t => .header (fun h => Header.Add h k v) (fun _ => Prog.ofCalls t)
  | .headerSet k v :: t => .header (fun h => Header.Set h k v) (fun _ => Prog.ofCalls t)
  | .writeHeader c :: t => .writeHeader c (Prog.ofCalls t)
  | .write b :: t => .write b (fun _ => Prog.ofCalls t)

namespace Header

end Header

/-- The request of the examples: `POST /api/api/x?q=1` with a stale `Content-Length`,
an `X-Device-Id` of its own, a two-valued `Accept` and the body `{"a":1}`. -/
def exampleRequest : InRequest where
  method := "POST"
  path := "/api/api/x"
  rawQuery := "q=1"
  header := [("Content-Length", ["7", "9"]), ("X-Device-Id", ["spoofed"]),
    ("Accept", ["text/html", "application/json"])]
  body := some "\x7b\"a\":1\x7d"

/-- The request `exampleRequest` is forwarded as. -/
def exampleProxyReq : ProxyReq where
  method := "POST"
  url := "http://up/api/x"
  header := [("Content-Length", ["28"]), ("X-Device-Id", ["dev-1"]),
    ("Accept", ["text/html", "application/json"])]
  body := "\x7b\"a\":1,\"creator_id\":\"dev-1\"\x7d"

/-- The request `exampleRequest` with another query string. -/
def exampleRequestOtherQuery : InRequest := { exampleRequest with rawQuery := "admin=true&x=2" }

/-- The status codes of the `WriteHeader` calls in a sequence of calls. -/
def statusCalls : List Call → List Nat
  | [] => []
  | .writeHeader c :: t => c :: statusCalls t
  | _ :: t => statusCalls t

/-- The status the shim holds after a run of calls: the code of the last `WriteHeader`
among them, or what it held before. -/
def lastWriteHeader (st : Nat) : List SinkCall → Nat
  | [] => st
  | .WriteHeader c :: t => lastWriteHeader c t
  | _ :: t => lastWriteHeader st t

/-- A handler that calls `WriteHeader(404)` and then `WriteHeader(500)`. -/
def twoStatusHandler : InRequest → Prog :=
  fun _ => Prog.ofCalls [.writeHeader 404, .writeHeader 500]

/-- A handler that writes body bytes and then calls `WriteHeader(500)`. -/
def lateStatusHandler : InRequest → Prog :=
  fun _ => Prog.ofCalls [.write "partial", .writeHeader 500]

/-- The text does not go on with a digit. -/
def noDigitHead : List Char → Bool
  | [] => true
  | c :: _ => !c.isDigit

/-- The text cannot continue a number literal. -/
def numEnd : List Char → Bool
  | [] => true
  | c :: _ => !c.isDigit && c != '.' && c != 'e' && c != 'E'

/-- The text does not go on with the character `c`. -/
def headNe (c : Char) : List Char → Bool
  | [] => true
  | x :: _ => x != c

/-- Fuel that is enough for the goal on the text. -/
def fuelNeed : Goal → List Char → Nat
  | .value, cs => 2 * cs.length
  | _, cs => 2 * cs.length + 1

/-- The number is written by `formatFloat` as a literal that the lexer reads back,
whole, as the same number. -/
def numOK (f : F64) : Bool :=
  match lexNumber (formatFloat f) with
  | .ok (g, []) => g == f
  | _ => false

mutual
/-- Every number inside the value passes `numOK`. -/
def Json.numsOK : Json → Bool
  | .num f => numOK f
  | .arr xs => Json.numsOKList xs
  | .obj kvs => Json.numsOKMembers kvs
  | _ => true
/-- Every number inside the elements passes `numOK`. -/
def Json.numsOKList : List Json → Bool
  | [] => true
  | x :: t => Json.numsOK x && Json.numsOKList t
/-- Every number inside the member values passes `numOK`. -/
def Json.numsOKMembers : List (String × Json) → Bool
  | [] => true
  | (_, v) :: t => Json.numsOK v && Json.numsOKMembers t
end

mutual
/-- A value the decoder can produce inside `d` open containers: numbers are `float64`
values, object keys are distinct, and the nesting stays within the limit. -/
def Json.Valid : Nat → Json → Prop
  | _, .null => True
  | _, .bool _ => True
  | _, .num f => f.Canonical
  | _, .str _ => True
  | d, .arr xs => d + 1 ≤ maxNestingDepth ∧ Json.ValidList (d + 1) xs
  | d, .obj kvs =>
    d + 1 ≤ maxNestingDepth ∧ (kvs.map Prod.fst).Nodup ∧ Json.ValidMembers (d + 1) kvs
/-- All elements are valid. -/
def Json.ValidList : Nat → List Json → Prop
  | _, [] => True
  | d, x :: t => Json.Valid d x ∧ Json.ValidList d t
/-- All member values are valid. -/
def Json.ValidMembers : Nat → List (String × Json) → Prop
  | _, [] => True
  | d, (_, v) :: t => Json.Valid d v ∧ Json.ValidMembers d t
end

mutual
/-- The value with the members of every object in key order, which is how it comes back
from its serialisation. -/
def Json.norm : Json → Json
  | .null => .null
  | .bool b => .bool b
  | .num f => .num f
  | .str s => .str s
  | .arr xs => .arr (Json.normList xs)
  | .obj kvs => .obj (sortByKey (Json.normMembers kvs))
/-- The elements normalised. -/
def Json.normList : List Json → List Json
  | [] => []
  | x :: t => Json.norm x :: Json.normList t
/-- The member values normalised. -/
def Json.normMembers : List (String × Json) → List (String × Json)
  | [] => []
  | (k, v) :: t => (k, Json.norm v) :: Json.normMembers t
end

mutual
/-- Nesting height of a value. -/
def Json.height : Json → Nat
  | .arr xs => Json.heightList xs + 1
  | .obj kvs => Json.heightMembers kvs + 1
  | _ => 0
/-- Largest height among the elements. -/
def Json.heightList : List Json → Nat
  | [] => 0
  | x :: t => max (Json.height x) (Json.heightList t)
/-- Largest height among the member values. -/
def Json.heightMembers : List (String × Json) → Nat
  | [] => 0
  | (_, v) :: t => max (Json.height v) (Json.heightMembers t)
end

/-- Whitespace between the tokens of a JSON text. -/
def IsWs (w : List Char) : Prop := ∀ c ∈ w, isSpace c = true

/-- A hexadecimal digit. -/
def isHexDigit (c : Char) : Bool := (hexVal c).isSome

/-- The characters between the quotes of a JSON string (RFC 8259, section 7): unescaped
characters from U+0020 on other than the quote and the backslash, the two-character
escapes, and `\uXXXX`. -/
inductive IsStringBody : List Char → Prop
  | nil : IsStringBody []
  | plain (c : Char) (t : List Char) : c ≠ '"' → c ≠ '\\' → 0x20 ≤ c.toNat →
      IsStringBody t → IsStringBody (c :: t)
  | escape (e : Char) (t : List Char) : e ∈ ['"', '\\', '/', 'b', 'f', 'n', 'r', 't'] →
      IsStringBody t → IsStringBody ('\\' :: e :: t)
  | unicode (a b c d : Char) (t : List Char) : isHexDigit a = true → isHexDigit b = true →
      isHexDigit c = true → isHexDigit d = true → IsStringBody t →
      IsStringBody ('\\' :: 'u' :: a :: b :: c :: d :: t)

/-- One or more decimal digits. -/
def IsDigits (ds : List Char) : Prop := ds ≠ [] ∧ ∀ c ∈ ds, c.isDigit = true

/-- A JSON number (RFC 8259, section 6): an optional minus, an integer part without a
superfluous leading zero, an optional fraction, an optional exponent. -/
def IsNumber (t : List Char) : Prop :=
  ∃ p : NumParts, t = p.text ∧
    (p.ip = ['0'] ∨ (IsDigits p.ip ∧ p.ip.head? ≠ some '0')) ∧
    (p.fp = [] ∨ ∃ ds, p.fp = '.' :: ds ∧ IsDigits ds) ∧
    (p.ep = [] ∨ ∃ e s ds, p.ep = e :: (s ++ ds) ∧ (e = 'e' ∨ e = 'E') ∧
      (s = [] ∨ s = ['+'] ∨ s = ['-']) ∧ IsDigits ds)

/-- The kinds of JSON value. -/
inductive JsonKind where
  | null
  | boolean
  | number
  | string
  | array
  | object
  deriving DecidableEq

mutual
/-- The text is a JSON value of the given kind (RFC 8259, sections 3 to 7). -/
inductive IsValue : JsonKind → List Char → Prop
  | null : IsValue .null ['n', 'u', 'l', 'l']
  | true : IsValue .boolean ['t', 'r', 'u', 'e']
  | false : IsValue .boolean ['f', 'a', 'l', 's', 'e']
  | number (t : List Char) : IsNumber t → IsValue .number t
  | string (s : List Char) : IsStringBody s → IsValue .string ('"' :: (s ++ ['"']))
  | emptyArray (w : List Char) : IsWs w → IsValue .array ('[' :: (w ++ [']']))
  | array (t : List Char) : IsElements t → IsValue .array ('[' :: (t ++ [']']))
  | emptyObject (w : List Char) : IsWs w → IsValue .object ('{' :: (w ++ ['}']))
  | object (t : List Char) : IsMembers t → IsValue .object ('{' :: (t ++ ['}']))
/-- The text between the brackets of a non-empty array: values separated by commas,
each with optional whitespace around it. -/
inductive IsElements : List Char → Prop
  | one (w1 : List Char) (k : JsonKind) (v w2 : List Char) : IsWs w1 → IsValue k v →
      IsWs w2 → IsElements (w1 ++ (v ++ w2))
  | more (w1 : List Char) (k : JsonKind) (v w2 t : List Char) : IsWs w1 → IsValue k v →
      IsWs w2 → IsElements t → IsElements (w1 ++ (v ++ (w2 ++ ',' :: t)))
/-- The text between the braces of a non-empty object: members `"key" : value`
separated by commas, with optional whitespace around the tokens. -/
inductive IsMembers : List Char → Prop
  | one (w1 key w2 w3 : List Char) (k : JsonKind) (v w4 : List Char) : IsWs w1 →
      IsStringBody key → IsWs w2 → IsWs w3 → IsValue k v → IsWs w4 →
      IsMembers (w1 ++ '"' :: (key ++ '"' :: (w2 ++ ':' :: (w3 ++ (v ++ w4)))))
  | more (w1 key w2 w3 : List Char) (k : JsonKind) (v w4 t : List Char) : IsWs w1 →
      IsStringBody key → IsWs w2 → IsWs w3 → IsValue k v → IsWs w4 → IsMembers t →
      IsMembers (w1 ++ '"' :: (key ++ '"' :: (w2 ++ ':' :: (w3 ++ (v ++ (w4 ++ ',' :: t))))))
end

/-- The text is optional whitespace followed by a JSON value of the given kind. -/
def IsJsonPrefix (k : JsonKind) (pre : List Char) : Prop :=
  ∃ w v, pre = w ++ v ∧ IsWs w ∧ IsValue k v

/-- The body is malformed JSON for a decoder that reads one value from a stream: no
initial part of it is a JSON value. -/
def Malformed (body : String) : Prop :=
  ∀ k pre rest, body.data = pre ++ rest → ¬ IsJsonPrefix k pre

/-- The body starts with a JSON value of the given kind. -/
def FirstValueIs (k : JsonKind) (body : String) : Prop :=
  ∃ pre rest, body.data = pre ++ rest ∧ IsJsonPrefix k pre

/-- The kind of a decoded value. -/
def Json.kind : Json → JsonKind
  | .null => .null
  | .bool _ => .boolean
  | .num _ => .number
  | .str _ => .string
  | .arr _ => .array
  | .obj _ => .object

/-- The kind of value a character starts. -/
def kindOfStart (c : Char) : Option JsonKind :=
  if c == '{' then some .object
  else if c == '[' then some .array
  else if c == '"' then some .string
  else if c == '-' || c.isDigit then some .number
  else if c == 't' || c == 'f' then some .boolean
  else if c == 'n' then some .null
  else none

/-! ### Further examples -/

theorem readEscape_length (cs : List Char) (ch : Char) (rest : List Char)
    (h : readEscape cs = .ok (ch, rest)) : rest.length < cs.length := by
  cases cs with
  | nil => simp [readEscape] at h
  | cons e cs1 =>
    unfold readEscape at h
    simp only at h
    repeat' split at h
    all_goals first
      | (simp only [Except.ok.injEq, Prod.mk.injEq] at h
         rw [← h.2]
         simp only [List.length_drop, List.length_cons]
         omega)
      | (exfalso; revert h; simp)

theorem readEscape_no_fuel (cs : List Char) : readEscape cs ≠ .error .fuel := by
  cases cs with
  | nil => simp [readEscape]
  | cons e cs1 =>
    unfold readEscape
    simp only
    repeat' split
    all_goals simp

theorem lexString_spec (n : Nat) : ∀ (cs acc : List Char),
    (cs.length < n → lexString n cs acc ≠ .error .fuel) ∧
    (∀ s rest, lexString n cs acc = .ok (s, rest) → rest.length < cs.length) := by
  induction n with
  | zero =>
    intro cs acc
    exact ⟨fun h => absurd h (Nat.not_lt_zero _), fun s rest h => by simp [lexString] at h⟩
  | succ n ih =>
    intro cs acc
    cases cs with
    | nil => exact ⟨fun _ => by simp [lexString], fun s rest h => by simp [lexString] at h⟩
    | cons c cs =>
      constructor
      · intro hlen
        simp only [List.length_cons, Nat.add_lt_add_iff_right] at hlen
        unfold lexString
        split
        · simp
        · split
          · cases hre : readEscape cs with
            | error e =>
              simp only
              intro hf
              have he : e = JsonErr.fuel := by injection hf
              exact readEscape_no_fuel cs (by rw [hre, he])
            | ok p =>
              obtain ⟨ch, rest⟩ := p
              simp only
              have := readEscape_length cs ch rest hre
              exact (ih rest _).1 (by omega)
          · split
            · simp
            · exact (ih _ _).1 hlen
      · intro s rest h
        unfold lexString at h
        simp only [List.length_cons]
        split at h
        · simp only [Except.ok.injEq, Prod.mk.injEq] at h
          rw [← h.2]; omega
        · split at h
          · cases hre : readEscape cs with
            | error e => rw [hre] at h; simp at h
            | ok p =>
              obtain ⟨ch, rest1⟩ := p
              rw [hre] at h
              simp only at h
              have h1 := readEscape_length cs ch rest1 hre
              have h2 := (ih rest1 _).2 s rest h
              omega
          · split at h
            · simp at h
            · have := (ih _ _).2 s rest h; omega

theorem takeDigits_spec (cs : List Char) :
    cs = (takeDigits cs).1 ++ (takeDigits cs).2 ∧
    (∀ c ∈ (takeDigits cs).1, c.isDigit = true) ∧
    noDigitHead (takeDigits cs).2 = true := by
  induction cs with
  | nil => simp [takeDigits, noDigitHead]
  | cons c t ih =>
    unfold takeDigits
    by_cases hc : c.isDigit = true
    · simp only [hc, if_true]
      refine ⟨?_, ?_, ih.2.2⟩
      · simp only [List.cons_append]
        rw [← ih.1]
      · intro x hx
        rcases List.mem_cons.mp hx with e | e
        · rw [e]; exact hc
        · exact ih.2.1 x e
    · simp [hc, noDigitHead]

theorem takeDigits_append (ds r : List Char) (hd : ∀ c ∈ ds, c.isDigit = true)
    (hr : noDigitHead r = true) : takeDigits (ds ++ r) = (ds, r) := by
  induction ds with
  | nil =>
    cases r with
    | nil => rfl
    | cons c t =>
      have : c.isDigit = false := by simpa [noDigitHead] using hr
      simp [takeDigits, this]
  | cons d t ih =>
    have hd1 : d.isDigit = true := hd d (List.mem_cons_self _ _)
    have ih1 := ih (fun c hc => hd c (List.mem_cons_of_mem _ hc))
    simp only [List.cons_append]
    unfold takeDigits
    simp [hd1, ih1]

theorem lexInt_spec (cs ip r : List Char) (h : lexInt cs = .ok (ip, r)) :
    cs = ip ++ r ∧ ip ≠ [] ∧
    ∀ r1, noDigitHead r1 = true → lexInt (ip ++ r1) = .ok (ip, r1) := by
  cases cs with
  | nil => simp [lexInt] at h
  | cons c t =>
    unfold lexInt at h
    by_cases hc : c.isDigit = true
    · simp only [hc, Bool.not_true, Bool.false_eq_true, if_false] at h
      by_cases h0 : (c == '0') = true
      · simp only [h0, if_true, Except.ok.injEq, Prod.mk.injEq] at h
        have hc0 : c = '0' := by simpa using h0
        obtain ⟨h1, h2⟩ := h
        subst h1 h2
        refine ⟨by simp [hc0], by simp, ?_⟩
        intro r1 _
        simp [lexInt]
      · simp only [h0, if_false] at h
        cases h
        have sp := takeDigits_spec t
        refine ⟨by simp only [List.cons_append]; rw [← sp.1], by simp, ?_⟩
        intro r1 hr1
        simp only [List.cons_append]
        unfold lexInt
        simp only [hc, Bool.not_true, Bool.false_eq_true, if_false, h0]
        rw [takeDigits_append _ _ sp.2.1 hr1]
    · simp [hc] at h

theorem lexInt_no_fuel (cs : List Char) : lexInt cs ≠ .error .fuel := by
  cases cs with
  | nil => simp [lexInt]
  | cons c t =>
    unfold lexInt
    repeat' split
    all_goals simp

theorem lexFrac_spec (cs fp r : List Char) (h : lexFrac cs = .ok (fp, r)) :
    cs = fp ++ r ∧ (fp = [] ∨ ∃ t, fp = '.' :: t) ∧
    ∀ r1, noDigitHead r1 = true → (fp = [] → headNe '.' r1 = true) →
      lexFrac (fp ++ r1) = .ok (fp, r1) := by
  cases cs with
  | nil =>
    simp only [lexFrac] at h
    cases h
    refine ⟨rfl, Or.inl rfl, ?_⟩
    intro r1 _ h2
    cases r1 with
    | nil => rfl
    | cons x t =>
      have hx : (x == '.') = false := by simpa [headNe] using h2 rfl
      simp [lexFrac, hx]
  | cons c t =>
    unfold lexFrac at h
    by_cases hc : (c == '.') = true
    · simp only [hc, if_true] at h
      cases t with
      | nil => simp at h
      | cons d t1 =>
        simp only at h
        by_cases hd : d.isDigit = true
        · simp only [hd, if_true] at h
          cases h
          have sp := takeDigits_spec (d :: t1)
          have hc1 : c = '.' := by simpa using hc
          subst hc1
          refine ⟨by simp only [List.cons_append]; rw [← sp.1], Or.inr ⟨_, rfl⟩, ?_⟩
          intro r1 hr1 _
          have hne : (takeDigits (d :: t1)).1 ≠ [] := by
            unfold takeDigits; simp [hd]
          obtain ⟨d1, t2, h12⟩ := List.exists_cons_of_ne_nil hne
          have hd1 : d1.isDigit = true := sp.2.1 d1 (by rw [h12]; exact List.mem_cons_self _ _)
          have happ := takeDigits_append _ r1 sp.2.1 hr1
          rw [h12] at happ ⊢
          simp only [List.cons_append] at happ ⊢
          unfold lexFrac
          simp only [beq_self_eq_true, if_true, hd1, happ]
        · simp [hd] at h
    · simp only [hc, if_false] at h
      cases h
      refine ⟨rfl, Or.inl rfl, ?_⟩
      intro r1 _ h2
      cases r1 with
      | nil => rfl
      | cons x t =>
        have hx : (x == '.') = false := by simpa [headNe] using h2 rfl
        simp [lexFrac, hx]

theorem lexFrac_no_fuel (cs : List Char) : lexFrac cs ≠ .error .fuel := by
  cases cs with
  | nil => simp [lexFrac]
  | cons c t =>
    unfold lexFrac
    repeat' split
    all_goals simp

theorem lexExp_no_fuel (cs : List Char) : lexExp cs ≠ .error .fuel := by
  cases cs with
  | nil => simp [lexExp]
  | cons c t =>
    unfold lexExp
    repeat' split
    all_goals simp

theorem lexExp_spec (cs ep r : List Char) (h : lexExp cs = .ok (ep, r)) :
    cs = ep ++ r ∧ (ep = [] ∨ ∃ x t, ep = x :: t ∧ (x == 'e' || x == 'E') = true) ∧
    ∀ r1, noDigitHead r1 = true → (ep = [] → (headNe 'e' r1 && headNe 'E' r1) = true) →
      lexExp (ep ++ r1) = .ok (ep, r1) := by
  have hnil : ∀ r1, (headNe 'e' r1 && headNe 'E' r1) = true → lexExp ([] ++ r1) = .ok ([], r1) := by
    intro r1 h2
    cases r1 with
    | nil => rfl
    | cons x t =>
      have hx : (x == 'e' || x == 'E') = false := by
        simp only [headNe, Bool.and_eq_true, bne_iff_ne, ne_eq] at h2
        simp [h2.1, h2.2]
      simp [lexExp, hx]
  cases cs with
  | nil =>
    simp only [lexExp] at h
    cases h
    exact ⟨rfl, Or.inl rfl, fun r1 _ h2 => hnil r1 (h2 rfl)⟩
  | cons x t =>
    unfold lexExp at h
    by_cases hx : (x == 'e' || x == 'E') = true
    · simp only [hx, if_true] at h
      cases t with
      | nil => simp at h
      | cons s t1 =>
        simp only at h
        by_cases hs : (s == '+' || s == '-') = true
        · simp only [hs, if_true] at h
          cases t1 with
          | nil => simp at h
          | cons d t2 =>
            simp only at h
            by_cases hd : d.isDigit = true
            · simp only [hd, if_true] at h
              cases h
              have sp := takeDigits_spec (d :: t2)
              refine ⟨by simp only [List.cons_append]; rw [← sp.1], Or.inr ⟨_, _, rfl, hx⟩, ?_⟩
              intro r1 hr1 _
              have hne : (takeDigits (d :: t2)).1 ≠ [] := by
                unfold takeDigits; simp [hd]
              obtain ⟨d1, t3, h12⟩ := List.exists_cons_of_ne_nil hne
              have hd1 : d1.isDigit = true :=
                sp.2.1 d1 (by rw [h12]; exact List.mem_cons_self _ _)
              have happ := takeDigits_append _ r1 sp.2.1 hr1
              rw [h12] at happ ⊢
              simp only [List.cons_append] at happ ⊢
              unfold lexExp
              simp only [hx, if_true, hs, hd1, happ]
            · simp [hd] at h
        · simp only [hs, if_false] at h
          by_cases hd : s.isDigit = true
          · simp only [hd, if_true] at h
            cases h
            have sp := takeDigits_spec (s :: t1)
            refine ⟨by simp only [List.cons_append]; rw [← sp.1], Or.inr ⟨_, _, rfl, hx⟩, ?_⟩
            intro r1 hr1 _
            have hne : (takeDigits (s :: t1)).1 ≠ [] := by
              unfold takeDigits; simp [hd]
            obtain ⟨d1, t3, h12⟩ := List.exists_cons_of_ne_nil hne
            have hd1 : d1.isDigit = true :=
              sp.2.1 d1 (by rw [h12]; exact List.mem_cons_self _ _)
            have hs1 : (d1 == '+' || d1 == '-') = false := by
              have e : d1 = s := by
                have : (takeDigits (s :: t1)).1 = s :: (takeDigits t1).1 := by
                  conv => lhs; unfold takeDigits
                  simp [hd]
                rw [this] at h12
                injection h12 with e1 e2
                exact e1.symm
              rw [e]; simpa using hs
            have happ := takeDigits_append _ r1 sp.2.1 hr1
            rw [h12] at happ ⊢
            simp only [List.cons_append] at happ ⊢
            unfold lexExp
            simp only [hx, if_true, hs1, hd1, happ, Bool.false_eq_true, if_false]
          · simp [hd] at h
    · simp only [hx, if_false] at h
      cases h
      exact ⟨rfl, Or.inl rfl, fun r1 _ h2 => hnil r1 (h2 rfl)⟩

theorem lexInt_head (cs ip r : List Char) (h : lexInt cs = .ok (ip, r)) :
    ∃ c t, ip = c :: t ∧ c.isDigit = true := by
  cases cs with
  | nil => simp [lexInt] at h
  | cons c t =>
    unfold lexInt at h
    by_cases hc : c.isDigit = true
    · simp only [hc, Bool.not_true, Bool.false_eq_true, if_false] at h
      by_cases h0 : (c == '0') = true
      · simp only [h0, if_true] at h
        cases h
        exact ⟨'0', [], rfl, by decide⟩
      · simp only [h0, if_false] at h
        cases h
        exact ⟨c, _, rfl, hc⟩
    · simp [hc] at h

theorem numEnd_parts (r1 : List Char) (h : numEnd r1 = true) :
    noDigitHead r1 = true ∧ headNe '.' r1 = true ∧ headNe 'e' r1 = true ∧
      headNe 'E' r1 = true := by
  cases r1 with
  | nil => simp [noDigitHead, headNe]
  | cons c t =>
    simp only [numEnd, Bool.and_eq_true] at h
    simp [noDigitHead, headNe, h.1.1.1, h.1.1.2, h.1.2, h.2]

theorem noDigitHead_append (a b : List Char) (h : a = [] → noDigitHead b = true)
    (ha : ∀ c t, a = c :: t → c.isDigit = false) : noDigitHead (a ++ b) = true := by
  cases a with
  | nil => exact h rfl
  | cons c t => simp [noDigitHead, ha c t rfl]

theorem lexNumberParts_no_fuel (cs : List Char) : lexNumberParts cs ≠ .error .fuel := by
  cases cs with
  | nil => simp [lexNumberParts]
  | cons c t =>
    unfold lexNumberParts
    simp only
    cases h1 : lexInt (if (c == '-') = true then t else c :: t) with
    | error e =>
      simp only
      intro hf
      have he : e = JsonErr.fuel := by injection hf
      exact lexInt_no_fuel _ (by rw [h1, he])
    | ok p1 =>
      obtain ⟨ip, r2⟩ := p1
      simp only
      cases h2 : lexFrac r2 with
      | error e =>
        simp only
        intro hf
        have he : e = JsonErr.fuel := by injection hf
        exact lexFrac_no_fuel _ (by rw [h2, he])
      | ok p2 =>
        obtain ⟨fp, r4⟩ := p2
        simp only
        cases h3 : lexExp r4 with
        | error e =>
          simp only
          intro hf
          have he : e = JsonErr.fuel := by injection hf
          exact lexExp_no_fuel _ (by rw [h3, he])
        | ok p3 =>
          obtain ⟨ep, r7⟩ := p3
          simp

theorem lexNumber_no_fuel (cs : List Char) : lexNumber cs ≠ .error .fuel := by
  unfold lexNumber
  cases h : lexNumberParts cs with
  | error e =>
    simp only
    intro hf
    have he : e = JsonErr.fuel := by injection hf
    exact lexNumberParts_no_fuel cs (by rw [h, he])
  | ok p =>
    obtain ⟨q, rest⟩ := p
    simp only
    cases q.value <;> simp

/-- The parts the lexer finds make up the text it consumed, and are found again when
that text is followed by anything that cannot continue a number. -/
theorem lexNumberParts_spec (cs : List Char) (p : NumParts) (r : List Char)
    (h : lexNumberParts cs = .ok (p, r)) :
    cs = p.text ++ r ∧
    (∃ c t, p.text = c :: t ∧ (c == '-' || c.isDigit) = true) ∧
    ∀ r1, numEnd r1 = true → lexNumberParts (p.text ++ r1) = .ok (p, r1) := by
  cases cs with
  | nil => simp [lexNumberParts] at h
  | cons c t =>
    unfold lexNumberParts at h
    simp only at h
    cases h1 : lexInt (if (c == '-') = true then t else c :: t) with
    | error e => rw [h1] at h; simp at h
    | ok p1 =>
      obtain ⟨ip, r2⟩ := p1
      rw [h1] at h
      simp only at h
      cases h2 : lexFrac r2 with
      | error e => rw [h2] at h; simp at h
      | ok p2 =>
        obtain ⟨fp, r4⟩ := p2
        rw [h2] at h
        simp only at h
        cases h3 : lexExp r4 with
        | error e => rw [h3] at h; simp at h
        | ok p3 =>
          obtain ⟨ep, r7⟩ := p3
          rw [h3] at h
          simp only at h
          cases h
          obtain ⟨e1, -, re1⟩ := lexInt_spec _ _ _ h1
          obtain ⟨c0, t0, hip, hc0⟩ := lexInt_head _ _ _ h1
          obtain ⟨e2, hfp, re2⟩ := lexFrac_spec _ _ _ h2
          obtain ⟨e3, hep, re3⟩ := lexExp_spec _ _ _ h3
          have key : ∀ r1, numEnd r1 = true →
              lexInt (ip ++ (fp ++ (ep ++ r1))) = .ok (ip, fp ++ (ep ++ r1)) ∧
              lexFrac (fp ++ (ep ++ r1)) = .ok (fp, ep ++ r1) ∧
              lexExp (ep ++ r1) = .ok (ep, r1) := by
            intro r1 hr1
            obtain ⟨n1, n2, n3, n4⟩ := numEnd_parts r1 hr1
            have nd_ep : noDigitHead (ep ++ r1) = true := by
              apply noDigitHead_append
              · intro _; exact n1
              · intro x tx hx
                rcases hep with h0 | ⟨x1, t1, h0, hx1⟩
                · rw [h0] at hx; cases hx
                · rw [h0] at hx
                  injection hx with ha hb
                  subst ha
                  rcases Bool.or_eq_true _ _ ▸ hx1 with hh | hh
                  · have : x1 = 'e' := by simpa using hh
                    rw [this]; decide
                  · have : x1 = 'E' := by simpa using hh
                    rw [this]; decide
            have nd_fp : noDigitHead (fp ++ (ep ++ r1)) = true := by
              apply noDigitHead_append
              · intro _; exact nd_ep
              · intro x tx hx
                rcases hfp with h0 | ⟨t1, h0⟩
                · rw [h0] at hx; cases hx
                · rw [h0] at hx
                  injection hx with ha hb
                  rw [← ha]; decide
            have dot_ep : fp = [] → headNe '.' (ep ++ r1) = true := by
              intro _
              rcases hep with h0 | ⟨x1, t1, h0, hx1⟩
              · rw [h0]; exact n2
              · rw [h0]
                simp only [List.cons_append, headNe]
                rcases Bool.or_eq_true _ _ ▸ hx1 with hh | hh
                · have : x1 = 'e' := by simpa using hh
                  rw [this]; decide
                · have : x1 = 'E' := by simpa using hh
                  rw [this]; decide
            refine ⟨re1 _ nd_fp, re2 _ nd_ep dot_ep, re3 _ n1 ?_⟩
            intro _
            simp [n3, n4]
          by_cases hm : (c == '-') = true
          · simp only [hm, if_true] at h1 e1 ⊢
            have hc : c = '-' := by simpa using hm
            refine ⟨?_, ⟨'-', ip ++ fp ++ ep, by simp [NumParts.text], by decide⟩, ?_⟩
            · rw [hc, e1, e2, e3]
              simp [NumParts.text]
            · intro r1 hr1
              obtain ⟨k1, k2, k3⟩ := key r1 hr1
              simp only [NumParts.text, if_true, List.cons_append, List.nil_append,
                List.append_assoc]
              unfold lexNumberParts
              simp only [beq_self_eq_true, if_true, k1, k2, k3]
          · simp only [hm, if_false, Bool.false_eq_true] at h1 e1 ⊢
            have hcc : c = c0 := by
              rw [hip] at e1
              simp only [List.cons_append] at e1
              injection e1
            refine ⟨?_, ⟨c0, t0 ++ fp ++ ep, by simp [NumParts.text, hip], by simp [hc0]⟩, ?_⟩
            · rw [e1, e2, e3]; simp [NumParts.text]
            · intro r1 hr1
              obtain ⟨k1, k2, k3⟩ := key r1 hr1
              subst hip
              subst hcc
              simp only [NumParts.text, Bool.false_eq_true, if_false, List.nil_append,
                List.append_assoc, List.cons_append] at k1 ⊢
              unfold lexNumberParts
              simp only [hm, if_false, Bool.false_eq_true, k1, k2, k3]

/-- A number the lexer reads is read from a literal that it reads again, with the same
value, before any text that cannot continue a number. -/
theorem lexNumber_spec (cs : List Char) (f : F64) (r : List Char)
    (h : lexNumber cs = .ok (f, r)) :
    ∃ lit, cs = lit ++ r ∧
      (∃ c t, lit = c :: t ∧ (c == '-' || c.isDigit) = true) ∧
      ∀ r1, numEnd r1 = true → lexNumber (lit ++ r1) = .ok (f, r1) := by
  unfold lexNumber at h
  cases hp : lexNumberParts cs with
  | error e => rw [hp] at h; simp at h
  | ok pr =>
    obtain ⟨p, rest⟩ := pr
    rw [hp] at h
    simp only at h
    cases hv : p.value with
    | none => rw [hv] at h; simp at h
    | some g =>
      rw [hv] at h
      simp only [Except.ok.injEq, Prod.mk.injEq] at h
      obtain ⟨e1, e2, e3⟩ := lexNumberParts_spec cs p rest hp
      refine ⟨p.text, by rw [← h.2]; exact e1, e2, ?_⟩
      intro r1 hr1
      unfold lexNumber
      rw [e3 r1 hr1]
      simp only [hv, h.1]

theorem two_zpow_succ (k : Int) : (2 : ℚ) ^ (k + 1) = 2 * (2 : ℚ) ^ k := by
  rw [zpow_add₀ (by norm_num : (2 : ℚ) ≠ 0), zpow_one]
  ring

theorem lexExp_nil : lexExp [] = .ok ([], []) := rfl

theorem skipWs_length (cs : List Char) : (skipWs cs).length ≤ cs.length := by
  induction cs with
  | nil => simp [skipWs]
  | cons c t ih =>
    unfold skipWs
    split
    · simp only [List.length_cons]; omega
    · simp

theorem parseScalar_spec (c : Char) (r : List Char) :
    parseScalar c r ≠ .error .fuel ∧
    ∀ v rest, parseScalar c r = .ok (v, rest) → rest.length ≤ r.length := by
  unfold parseScalar
  constructor
  · split
    · cases hl : lexString (r.length + 1) r [] with
      | error e =>
        simp only
        intro hf
        have he : e = JsonErr.fuel := by injection hf
        exact (lexString_spec (r.length + 1) r []).1 (Nat.lt_succ_self _) (by rw [hl, he])
      | ok p => simp
    · split
      · cases hl : lexNumber (c :: r) with
        | error e =>
          simp only
          intro hf
          have he : e = JsonErr.fuel := by injection hf
          exact lexNumber_no_fuel _ (by rw [hl, he])
        | ok p => simp
      · repeat' split
        all_goals simp
  · intro v rest h
    split at h
    · cases hl : lexString (r.length + 1) r [] with
      | error e => rw [hl] at h; simp at h
      | ok p =>
        obtain ⟨s, r1⟩ := p
        rw [hl] at h
        simp only [Except.ok.injEq, Prod.mk.injEq] at h
        have := (lexString_spec (r.length + 1) r []).2 s r1 hl
        rw [← h.2]; omega
    · split at h
      · cases hl : lexNumber (c :: r) with
        | error e => rw [hl] at h; simp at h
        | ok p =>
          obtain ⟨l, r1⟩ := p
          rw [hl] at h
          simp only [Except.ok.injEq, Prod.mk.injEq] at h
          obtain ⟨lit, e1, ⟨c0, t0, e2, -⟩, -⟩ := lexNumber_spec _ _ _ hl
          have hlen := congrArg List.length e1
          rw [e2] at hlen
          simp only [List.length_cons, List.length_append] at hlen
          rw [← h.2]; omega
      · repeat' split at h
        all_goals first
          | (simp only [Except.ok.injEq, Prod.mk.injEq] at h
             rw [← h.2]
             simp only [List.length_drop]
             omega)
          | (exfalso; revert h; simp)

theorem readKey_spec (cs : List Char) :
    readKey cs ≠ .error .fuel ∧
    ∀ k rest, readKey cs = .ok (k, rest) → rest.length < cs.length := by
  unfold readKey
  have hws := skipWs_length cs
  cases hs : skipWs cs with
  | nil => simp
  | cons q r =>
    rw [hs] at hws
    simp only [List.length_cons] at hws
    simp only
    by_cases hq : (q != '"') = true
    · simp [hq]
    · simp only [hq, Bool.false_eq_true, if_false]
      cases hl : lexString (r.length + 1) r [] with
      | error e =>
        simp only
        constructor
        · intro hf
          have he : e = JsonErr.fuel := by injection hf
          exact (lexString_spec (r.length + 1) r []).1 (Nat.lt_succ_self _) (by rw [hl, he])
        · intro k rest h; simp at h
      | ok p =>
        obtain ⟨s, r1⟩ := p
        have h1 := (lexString_spec (r.length + 1) r []).2 s r1 hl
        have hws1 := skipWs_length r1
        simp only
        cases hs1 : skipWs r1 with
        | nil => simp
        | cons c r2 =>
          rw [hs1] at hws1
          simp only [List.length_cons] at hws1
          simp only
          by_cases hc : (c != ':') = true
          · simp [hc]
          · simp only [hc, Bool.false_eq_true, if_false]
            refine ⟨by simp, ?_⟩
            intro k rest h
            simp only [Except.ok.injEq, Prod.mk.injEq] at h
            rw [← h.2]; omega

theorem parse_spec (n : Nat) : ∀ (d : Nat) (g : Goal) (cs : List Char),
    (fuelNeed g cs < n → parse n d g cs ≠ .error .fuel) ∧
    (∀ v rest, parse n d g cs = .ok (v, rest) → rest.length < cs.length) := by
  induction n with
  | zero =>
    intro d g cs
    exact ⟨fun h => absurd h (Nat.not_lt_zero _), fun v rest h => by simp [parse] at h⟩
  | succ n ih =>
    intro d g cs
    cases g with
    | value =>
      simp only [parse, fuelNeed]
      have hws := skipWs_length cs
      cases hs : skipWs cs with
      | nil => simp
      | cons c r =>
        rw [hs] at hws
        simp only [List.length_cons] at hws
        simp only
        by_cases h1 : (c == '{') = true
        · simp only [h1, if_true]
          by_cases hd : maxNestingDepth < d + 1
          · simp [hd]
          · simp only [hd, if_false]
            have hws1 := skipWs_length r
            cases hs1 : skipWs r with
            | nil => simp
            | cons c1 r1 =>
              rw [hs1] at hws1
              simp only [List.length_cons] at hws1
              simp only
              by_cases h2 : (c1 == '}') = true
              · simp only [h2, if_true]
                refine ⟨by simp, ?_⟩
                intro v rest h
                simp only [Except.ok.injEq, Prod.mk.injEq] at h
                rw [← h.2]; omega
              · simp only [h2, Bool.false_eq_true, if_false]
                have ihr := ih (d + 1) (.members []) r
                refine ⟨fun hn => ihr.1 (by simp only [fuelNeed]; omega), ?_⟩
                intro v rest h
                have := ihr.2 v rest h
                omega
        · simp only [h1, Bool.false_eq_true, if_false]
          by_cases h3 : (c == '[') = true
          · simp only [h3, if_true]
            by_cases hd : maxNestingDepth < d + 1
            · simp [hd]
            · simp only [hd, if_false]
              have hws1 := skipWs_length r
              cases hs1 : skipWs r with
              | nil => simp
              | cons c1 r1 =>
                rw [hs1] at hws1
                simp only [List.length_cons] at hws1
                simp only
                by_cases h2 : (c1 == ']') = true
                · simp only [h2, if_true]
                  refine ⟨by simp, ?_⟩
                  intro v rest h
                  simp only [Except.ok.injEq, Prod.mk.injEq] at h
                  rw [← h.2]; omega
                · simp only [h2, Bool.false_eq_true, if_false]
                  have ihr := ih (d + 1) (.elems []) r
                  refine ⟨fun hn => ihr.1 (by simp only [fuelNeed]; omega), ?_⟩
                  intro v rest h
                  have := ihr.2 v rest h
                  omega
          · simp only [h3, Bool.false_eq_true, if_false]
            have sp := parseScalar_spec c r
            refine ⟨fun _ => sp.1, ?_⟩
            intro v rest h
            have := sp.2 v rest h
            omega
    | elems acc =>
      simp only [parse, fuelNeed]
      have ihv := ih d .value cs
      cases hp : parse n d .value cs with
      | error e =>
        simp only
        refine ⟨?_, by simp⟩
        intro hn hf
        have he : e = JsonErr.fuel := by injection hf
        exact ihv.1 (by simp only [fuelNeed]; omega) (by rw [hp, he])
      | ok p =>
        obtain ⟨v0, r⟩ := p
        have hr := ihv.2 v0 r hp
        have hws := skipWs_length r
        simp only
        cases hs : skipWs r with
        | nil => simp
        | cons c r1 =>
          rw [hs] at hws
          simp only [List.length_cons] at hws
          simp only
          by_cases h1 : (c == ',') = true
          · simp only [h1, if_true]
            have ihr := ih d (.elems (acc ++ [v0])) r1
            refine ⟨fun hn => ihr.1 (by simp only [fuelNeed]; omega), ?_⟩
            intro v rest h
            have := ihr.2 v rest h
            omega
          · simp only [h1, Bool.false_eq_true, if_false]
            by_cases h2 : (c == ']') = true
            · simp only [h2, if_true]
              refine ⟨by simp, ?_⟩
              intro v rest h
              simp only [Except.ok.injEq, Prod.mk.injEq] at h
              rw [← h.2]; omega
            · simp [h2]
    | members acc =>
      simp only [parse, fuelNeed]
      have hk := readKey_spec cs
      cases hrk : readKey cs with
      | error e =>
        simp only
        refine ⟨?_, by simp⟩
        intro hn hf
        have he : e = JsonErr.fuel := by injection hf
        exact hk.1 (by rw [hrk, he])
      | ok pk =>
        obtain ⟨k, r2⟩ := pk
        have hr2 := hk.2 k r2 hrk
        have ihv := ih d .value r2
        simp only
        cases hp : parse n d .value r2 with
        | error e =>
          simp only
          refine ⟨?_, by simp⟩
          intro hn hf
          have he : e = JsonErr.fuel := by injection hf
          exact ihv.1 (by simp only [fuelNeed]; omega) (by rw [hp, he])
        | ok p =>
          obtain ⟨v0, r3⟩ := p
          have hr := ihv.2 v0 r3 hp
          have hws := skipWs_length r3
          simp only
          cases hs : skipWs r3 with
          | nil => simp
          | cons c r4 =>
            rw [hs] at hws
            simp only [List.length_cons] at hws
            simp only
            by_cases h1 : (c == ',') = true
            · simp only [h1, if_true]
              have ihr := ih d (.members (mapSet acc k v0)) r4
              refine ⟨fun hn => ihr.1 (by simp only [fuelNeed]; omega), ?_⟩
              intro v rest h
              have := ihr.2 v rest h
              omega
            · simp only [h1, Bool.false_eq_true, if_false]
              by_cases h2 : (c == '}') = true
              · simp only [h2, if_true]
                refine ⟨by simp, ?_⟩
                intro v rest h
                simp only [Except.ok.injEq, Prod.mk.injEq] at h
                rw [← h.2]; omega
              · simp [h2]

/-- The reader never runs out of fuel. -/
theorem readValue_no_fuel (body : String) : readValue body ≠ .error .fuel := by
  unfold readValue
  have h := (parse_spec (2 * body.data.length + 1) 0 .value body.data).1
    (by simp only [fuelNeed]; omega)
  cases hp : parse (2 * body.data.length + 1) 0 .value body.data with
  | error e =>
    simp only
    intro hf
    have he : e = JsonErr.fuel := by injection hf
    exact h (by rw [hp, he])
  | ok p =>
    obtain ⟨v, rest⟩ := p
    simp

theorem parse_value_succ (n d : Nat) (cs : List Char) :
    parse (n + 1) d .value cs =
      match skipWs cs with
      | [] => .error .eof
      | c :: r =>
        if c == '{' then
          if maxNestingDepth < d + 1 then .error .depth
          else match skipWs r with
            | [] => .error .eof
            | c1 :: r1 =>
              if c1 == '}' then .ok (.obj [], r1) else parse n (d + 1) (.members []) r
        else if c == '[' then
          if maxNestingDepth < d + 1 then .error .depth
          else match skipWs r with
            | [] => .error .eof
            | c1 :: r1 =>
              if c1 == ']' then .ok (.arr [], r1) else parse n (d + 1) (.elems []) r
        else parseScalar c r := by
  simp only [parse]

theorem parse_elems_succ (n d : Nat) (acc : List Json) (cs : List Char) :
    parse (n + 1) d (.elems acc) cs =
      match parse n d .value cs with
      | .error e => .error e
      | .ok (v, r) =>
        match skipWs r with
        | [] => .error .eof
        | c :: r1 =>
          if c == ',' then parse n d (.elems (acc ++ [v])) r1
          else if c == ']' then .ok (.arr (acc ++ [v]), r1)
          else .error .syntaxErr := by
  simp only [parse]

theorem parse_members_succ (n d : Nat) (acc : GoMap) (cs : List Char) :
    parse (n + 1) d (.members acc) cs =
      match readKey cs with
      | .error e => .error e
      | .ok (k, r2) =>
        match parse n d .value r2 with
        | .error e => .error e
        | .ok (v, r3) =>
          match skipWs r3 with
          | [] => .error .eof
          | c1 :: r4 =>
            if c1 == ',' then parse n d (.members (mapSet acc k v)) r4
            else if c1 == '}' then .ok (.obj (mapSet acc k v), r4)
            else .error .syntaxErr := by
  simp only [parse]

theorem mapGet_cons {β : Type} (k0 : String) (v0 : β) (t : List (String × β)) (k : String) :
    mapGet ((k0, v0) :: t) k = if k = k0 then some v0 else mapGet t k := by
  unfold mapGet
  by_cases hk : k = k0
  · subst hk; simp [List.lookup]
  · have : (k == k0) = false := by simpa using hk
    simp [List.lookup, this, hk]

theorem mapGet_eq_none {β : Type} (m : List (String × β)) (k : String)
    (h : k ∉ m.map Prod.fst) : mapGet m k = none := by
  induction m with
  | nil => rfl
  | cons hd t ih =>
    obtain ⟨k0, v0⟩ := hd
    simp only [List.map_cons, List.mem_cons, not_or] at h
    rw [mapGet_cons]
    simp [h.1, ih h.2]

/-- A character that starts a number is none of the given other characters. -/
theorem numStart_ne (c x : Char) (h : (c == '-' || c.isDigit) = true)
    (hx : (x == '-' || x.isDigit) = false) : (c == x) = false := by
  cases hcx : (c == x) with
  | false => rfl
  | true =>
    have e : c = x := by simpa using hcx
    rw [e, hx] at h
    cases h

theorem numStart_not_space (c : Char) (h : (c == '-' || c.isDigit) = true) :
    isSpace c = false := by
  unfold isSpace
  rw [numStart_ne c ' ' h (by decide), numStart_ne c '\t' h (by decide),
    numStart_ne c '\r' h (by decide), numStart_ne c '\n' h (by decide)]
  rfl

theorem IsWs.nil : IsWs [] := fun _ h => by cases h

theorem IsWs.cons (c : Char) (w : List Char) (hc : isSpace c = true) (hw : IsWs w) :
    IsWs (c :: w) := by
  intro x hx
  rcases List.mem_cons.mp hx with e | e
  · rw [e]; exact hc
  · exact hw x e

/-- What `skipWs` drops is whitespace. -/
theorem skipWs_spec (cs : List Char) : ∃ w, cs = w ++ skipWs cs ∧ IsWs w := by
  induction cs with
  | nil => exact ⟨[], rfl, IsWs.nil⟩
  | cons c t ih =>
    unfold skipWs
    by_cases hc : isSpace c = true
    · obtain ⟨w, hw, hws⟩ := ih
      refine ⟨c :: w, ?_, IsWs.cons c w hc hws⟩
      simp only [hc, if_true, List.cons_append]
      rw [← hw]
    · exact ⟨[], by simp [hc], IsWs.nil⟩

/-- Whitespace before a character that is not whitespace is what `skipWs` drops. -/
theorem skipWs_ws_append (w : List Char) (c : Char) (t : List Char) (hw : IsWs w)
    (hc : isSpace c = false) : skipWs (w ++ c :: t) = c :: t := by
  induction w with
  | nil => simp [skipWs, hc]
  | cons x w1 ih =>
    have hx : isSpace x = true := hw x (List.mem_cons_self _ _)
    simp only [List.cons_append, skipWs, hx, if_true]
    exact ih (fun y hy => hw y (List.mem_cons_of_mem _ hy))

theorem IsStringBody.append (a b : List Char) (ha : IsStringBody a) (hb : IsStringBody b) :
    IsStringBody (a ++ b) := by
  induction ha with
  | nil => exact hb
  | plain c t h1 h2 h3 _ ih => exact IsStringBody.plain c _ h1 h2 h3 ih
  | escape e t h1 _ ih => exact IsStringBody.escape e _ h1 ih
  | unicode a b c d t h1 h2 h3 h4 _ ih => exact IsStringBody.unicode a b c d _ h1 h2 h3 h4 ih

theorem getu4_some (cs : List Char) (k : Nat) (h : getu4 cs = some k) :
    ∃ a b c d t, cs = 'u' :: a :: b :: c :: d :: t ∧ isHexDigit a = true ∧
      isHexDigit b = true ∧ isHexDigit c = true ∧ isHexDigit d = true := by
  unfold getu4 at h
  split at h
  · rename_i a b c d t
    refine ⟨a, b, c, d, t, rfl, ?_⟩
    unfold isHexDigit
    cases ha : hexVal a <;> cases hb : hexVal b <;> cases hc : hexVal c <;>
      cases hd : hexVal d <;> simp [ha, hb, hc, hd] at h ⊢
  · cases h

/-- An escape sequence the lexer accepts, with its backslash, is JSON string text. -/
theorem readEscape_sound (cs : List Char) (ch : Char) (rest : List Char)
    (h : readEscape cs = .ok (ch, rest)) :
    ∃ b, '\\' :: cs = b ++ rest ∧ IsStringBody b := by
  cases cs with
  | nil => simp [readEscape] at h
  | cons e cs1 =>
    have simple : ∀ x : Char, x ∈ ['"', '\\', '/', 'b', 'f', 'n', 'r', 't'] → e = x →
        rest = cs1 → ∃ b, '\\' :: e :: cs1 = b ++ rest ∧ IsStringBody b := by
      intro x hx he hr
      refine ⟨['\\', e], by simp [hr], ?_⟩
      rw [he]
      exact IsStringBody.escape x [] hx IsStringBody.nil
    unfold readEscape at h
    simp only at h
    by_cases h1 : (e == '"' || e == '\\' || e == '/') = true
    · simp only [h1, if_true, Except.ok.injEq, Prod.mk.injEq] at h
      simp only [Bool.or_eq_true, beq_iff_eq] at h1
      rcases h1 with (h1 | h1) | h1
      · exact simple '"' (by simp) h1 h.2.symm
      · exact simple '\\' (by simp) h1 h.2.symm
      · exact simple '/' (by simp) h1 h.2.symm
    simp only [h1, Bool.false_eq_true, if_false] at h
    by_cases h2 : (e == 'b') = true
    · simp only [h2, if_true, Except.ok.injEq, Prod.mk.injEq] at h
      exact simple 'b' (by simp) (by simpa using h2) h.2.symm
    simp only [h2, Bool.false_eq_true, if_false] at h
    by_cases h3 : (e == 'f') = true
    · simp only [h3, if_true, Except.ok.injEq, Prod.mk.injEq] at h
      exact simple 'f' (by simp) (by simpa using h3) h.2.symm
    simp only [h3, Bool.false_eq_true, if_false] at h
    by_cases h4 : (e == 'n') = true
    · simp only [h4, if_true, Except.ok.injEq, Prod.mk.injEq] at h
      exact simple 'n' (by simp) (by simpa using h4) h.2.symm
    simp only [h4, Bool.false_eq_true, if_false] at h
    by_cases h5 : (e == 'r') = true
    · simp only [h5, if_true, Except.ok.injEq, Prod.mk.injEq] at h
      exact simple 'r' (by simp) (by simpa using h5) h.2.symm
    simp only [h5, Bool.false_eq_true, if_false] at h
    by_cases h6 : (e == 't') = true
    · simp only [h6, if_true, Except.ok.injEq, Prod.mk.injEq] at h
      exact simple 't' (by simp) (by simpa using h6) h.2.symm
    simp only [h6, Bool.false_eq_true, if_false] at h
    by_cases h7 : (e == 'u') = true
    · simp only [h7, if_true] at h
      cases hg : getu4 (e :: cs1) with
      | none => rw [hg] at h; simp only at h; split at h <;> cases h
      | some rr =>
        rw [hg] at h
        simp only at h
        obtain ⟨a, b, c, d, t, hcs, ha, hb, hc, hd⟩ := getu4_some _ _ hg
        have hfirst : IsStringBody ['\\', 'u', a, b, c, d] :=
          IsStringBody.unicode a b c d [] ha hb hc hd IsStringBody.nil
        have hdrop5 : (e :: cs1).drop 5 = t := by rw [hcs]; rfl
        have single : rest = t → ∃ b, '\\' :: e :: cs1 = b ++ rest ∧ IsStringBody b := by
          intro hr
          exact ⟨['\\', 'u', a, b, c, d], by rw [hcs, hr]; rfl, hfirst⟩
        by_cases hs : isSurrogate rr = true
        · simp only [hs, if_true] at h
          split at h
          · rename_i dec heq
            simp only [Except.ok.injEq, Prod.mk.injEq] at h
            split at heq
            · rename_i t1 hd5
              cases hg2 : getu4 t1 with
              | none => rw [hg2] at heq; cases heq
              | some r2 =>
                obtain ⟨a2, b2, c2, d2, t2, hcs2, ha2, hb2, hc2, hd2⟩ := getu4_some _ _ hg2
                refine ⟨['\\', 'u', a, b, c, d] ++ ['\\', 'u', a2, b2, c2, d2], ?_,
                  IsStringBody.append _ _ hfirst
                    (IsStringBody.unicode a2 b2 c2 d2 [] ha2 hb2 hc2 hd2 IsStringBody.nil)⟩
                rw [hdrop5] at hd5
                rw [← h.2, hcs, hd5, hcs2]
                rfl
            · cases heq
          · simp only [Except.ok.injEq, Prod.mk.injEq] at h
            rw [hdrop5] at h
            exact single h.2.symm
        · simp only [hs, Bool.false_eq_true, if_false, Except.ok.injEq, Prod.mk.injEq] at h
          rw [hdrop5] at h
          exact single h.2.symm
    · simp [h7] at h

/-- A string the lexer accepts is JSON string text up to its closing quote. -/
theorem lexString_sound (n : Nat) : ∀ (cs acc : List Char) (s : String) (rest : List Char),
    lexString n cs acc = .ok (s, rest) → ∃ b, cs = b ++ '"' :: rest ∧ IsStringBody b := by
  induction n with
  | zero => intro cs acc s rest h; simp [lexString] at h
  | succ n ih =>
    intro cs acc s rest h
    cases cs with
    | nil => simp [lexString] at h
    | cons c cs =>
      unfold lexString at h
      by_cases h1 : (c == '"') = true
      · simp only [h1, if_true, Except.ok.injEq, Prod.mk.injEq] at h
        have hc : c = '"' := by simpa using h1
        exact ⟨[], by simp [hc, h.2], IsStringBody.nil⟩
      simp only [h1, Bool.false_eq_true, if_false] at h
      by_cases h2 : (c == '\\') = true
      · simp only [h2, if_true] at h
        have hc : c = '\\' := by simpa using h2
        cases hre : readEscape cs with
        | error e => rw [hre] at h; simp at h
        | ok p =>
          obtain ⟨ch, rest1⟩ := p
          rw [hre] at h
          simp only at h
          obtain ⟨b1, hb1, hs1⟩ := readEscape_sound cs ch rest1 hre
          obtain ⟨b2, hb2, hs2⟩ := ih rest1 _ s rest h
          refine ⟨b1 ++ b2, ?_, IsStringBody.append _ _ hs1 hs2⟩
          rw [hc, hb1, hb2]
          simp
      simp only [h2, Bool.false_eq_true, if_false] at h
      by_cases h3 : c.toNat < 0x20
      · simp [h3] at h
      simp only [h3, if_false] at h
      obtain ⟨b2, hb2, hs2⟩ := ih cs _ s rest h
      refine ⟨c :: b2, by rw [hb2]; simp, ?_⟩
      exact IsStringBody.plain c b2 (by simpa using h1) (by simpa using h2) (by omega) hs2

theorem lexInt_sound (cs ip r : List Char) (h : lexInt cs = .ok (ip, r)) :
    ip = ['0'] ∨ (IsDigits ip ∧ ip.head? ≠ some '0') := by
  cases cs with
  | nil => simp [lexInt] at h
  | cons c t =>
    unfold lexInt at h
    by_cases hc : c.isDigit = true
    · simp only [hc, Bool.not_true, Bool.false_eq_true, if_false] at h
      by_cases h0 : (c == '0') = true
      · simp only [h0, if_true, Except.ok.injEq, Prod.mk.injEq] at h
        exact Or.inl h.1.symm
      · simp only [h0, Bool.false_eq_true, if_false, Except.ok.injEq, Prod.mk.injEq] at h
        right
        rw [← h.1]
        refine ⟨⟨by simp, ?_⟩, ?_⟩
        · intro x hx
          rcases List.mem_cons.mp hx with e | e
          · rw [e]; exact hc
          · exact (takeDigits_spec t).2.1 x e
        · simpa using h0
    · simp [hc] at h

theorem lexFrac_sound (cs fp r : List Char) (h : lexFrac cs = .ok (fp, r)) :
    fp = [] ∨ ∃ ds, fp = '.' :: ds ∧ IsDigits ds := by
  cases cs with
  | nil =>
    simp only [lexFrac, Except.ok.injEq, Prod.mk.injEq] at h
    exact Or.inl h.1.symm
  | cons c t =>
    unfold lexFrac at h
    by_cases hc : (c == '.') = true
    · simp only [hc, if_true] at h
      cases t with
      | nil => simp at h
      | cons d t1 =>
        simp only at h
        by_cases hd : d.isDigit = true
        · simp only [hd, if_true, Except.ok.injEq, Prod.mk.injEq] at h
          right
          refine ⟨(takeDigits (d :: t1)).1, h.1.symm, ?_, (takeDigits_spec (d :: t1)).2.1⟩
          simp [takeDigits, hd]
        · simp [hd] at h
    · simp only [hc, Bool.false_eq_true, if_false, Except.ok.injEq, Prod.mk.injEq] at h
      exact Or.inl h.1.symm

theorem lexExp_sound (cs ep r : List Char) (h : lexExp cs = .ok (ep, r)) :
    ep = [] ∨ ∃ e s ds, ep = e :: (s ++ ds) ∧ (e = 'e' ∨ e = 'E') ∧
      (s = [] ∨ s = ['+'] ∨ s = ['-']) ∧ IsDigits ds := by
  cases cs with
  | nil =>
    simp only [lexExp, Except.ok.injEq, Prod.mk.injEq] at h
    exact Or.inl h.1.symm
  | cons x t =>
    unfold lexExp at h
    by_cases hx : (x == 'e' || x == 'E') = true
    · simp only [hx, if_true] at h
      have hx1 : x = 'e' ∨ x = 'E' := by simpa using hx
      cases t with
      | nil => simp at h
      | cons s r1 =>
        simp only at h
        by_cases hs : (s == '+' || s == '-') = true
        · simp only [hs, if_true] at h
          have hs1 : s = '+' ∨ s = '-' := by simpa using hs
          cases r1 with
          | nil => simp at h
          | cons d r2 =>
            simp only at h
            by_cases hd : d.isDigit = true
            · simp only [hd, if_true, Except.ok.injEq, Prod.mk.injEq] at h
              right
              refine ⟨x, [s], (takeDigits (d :: r2)).1, by rw [← h.1]; rfl, hx1, ?_, ?_,
                (takeDigits_spec (d :: r2)).2.1⟩
              · rcases hs1 with e | e
                · exact Or.inr (Or.inl (by rw [e]))
                · exact Or.inr (Or.inr (by rw [e]))
              · simp [takeDigits, hd]
            · simp [hd] at h
        · simp only [hs, Bool.false_eq_true, if_false] at h
          by_cases hd : s.isDigit = true
          · simp only [hd, if_true, Except.ok.injEq, Prod.mk.injEq] at h
            right
            refine ⟨x, [], (takeDigits (s :: r1)).1, by rw [← h.1]; rfl, hx1, Or.inl rfl, ?_,
              (takeDigits_spec (s :: r1)).2.1⟩
            simp [takeDigits, hd]
          · simp [hd] at h
    · simp only [hx, Bool.false_eq_true, if_false, Except.ok.injEq, Prod.mk.injEq] at h
      exact Or.inl h.1.symm

/-- A number literal the lexer accepts is a JSON number. -/
theorem lexNumberParts_sound (cs : List Char) (p : NumParts) (r : List Char)
    (h : lexNumberParts cs = .ok (p, r)) : IsNumber p.text := by
  cases cs with
  | nil => simp [lexNumberParts] at h
  | cons c t =>
    unfold lexNumberParts at h
    simp only at h
    cases h1 : lexInt (if (c == '-') = true then t else c :: t) with
    | error e => rw [h1] at h; simp at h
    | ok p1 =>
      obtain ⟨ip, r2⟩ := p1
      rw [h1] at h
      simp only at h
      cases h2 : lexFrac r2 with
      | error e => rw [h2] at h; simp at h
      | ok p2 =>
        obtain ⟨fp, r4⟩ := p2
        rw [h2] at h
        simp only at h
        cases h3 : lexExp r4 with
        | error e => rw [h3] at h; simp at h
        | ok p3 =>
          obtain ⟨ep, r7⟩ := p3
          rw [h3] at h
          simp only [Except.ok.injEq, Prod.mk.injEq] at h
          refine ⟨p, rfl, ?_⟩
          rw [← h.1]
          exact ⟨lexInt_sound _ _ _ h1, lexFrac_sound _ _ _ h2, lexExp_sound _ _ _ h3⟩

/-- A JSON number starts with a minus sign or a digit. -/
theorem IsNumber.head (t : List Char) (h : IsNumber t) :
    ∃ c r, t = c :: r ∧ (c == '-' || c.isDigit) = true := by
  obtain ⟨p, ht, hip, _, _⟩ := h
  obtain ⟨neg, ip, fp, ep⟩ := p
  simp only [NumParts.text] at ht hip
  cases neg with
  | true =>
    refine ⟨'-', ip ++ fp ++ ep, ?_, by simp⟩
    rw [ht]; simp
  | false =>
    rcases hip with h0 | ⟨⟨hne, hd⟩, _⟩
    · refine ⟨'0', fp ++ ep, ?_, by decide⟩
      rw [ht, h0]; simp
    · cases ip with
      | nil => exact absurd rfl hne
      | cons c t1 =>
        refine ⟨c, t1 ++ fp ++ ep, ?_, ?_⟩
        · rw [ht]; simp
        · simp [hd c (List.mem_cons_self _ _)]

theorem isPrefixOf_split (a b : List Char) (h : a.isPrefixOf b = true) :
    b = a ++ b.drop a.length := by
  obtain ⟨t, ht⟩ := List.isPrefixOf_iff_prefix.mp h
  rw [← ht]
  simp

/-- A scalar the parser accepts is a JSON value of the kind of the result. -/
theorem parseScalar_sound (c : Char) (r : List Char) (v : Json) (rest : List Char)
    (h : parseScalar c r = .ok (v, rest)) :
    ∃ t, c :: r = t ++ rest ∧ IsValue v.kind t := by
  unfold parseScalar at h
  by_cases h1 : (c == '"') = true
  · simp only [h1, if_true] at h
    have hc : c = '"' := by simpa using h1
    cases hl : lexString (r.length + 1) r [] with
    | error e => rw [hl] at h; simp at h
    | ok p =>
      obtain ⟨s, r1⟩ := p
      rw [hl] at h
      simp only [Except.ok.injEq, Prod.mk.injEq] at h
      obtain ⟨b, hb, hsb⟩ := lexString_sound _ _ _ _ _ hl
      refine ⟨'"' :: (b ++ ['"']), ?_, ?_⟩
      · rw [hc, hb, ← h.2]; simp
      · rw [← h.1]; exact IsValue.string b hsb
  simp only [h1, Bool.false_eq_true, if_false] at h
  by_cases h2 : (c == '-' || c.isDigit) = true
  · simp only [h2, if_true] at h
    cases hl : lexNumber (c :: r) with
    | error e => rw [hl] at h; simp at h
    | ok p =>
      obtain ⟨f, r1⟩ := p
      rw [hl] at h
      simp only [Except.ok.injEq, Prod.mk.injEq] at h
      unfold lexNumber at hl
      cases hp : lexNumberParts (c :: r) with
      | error e => rw [hp] at hl; simp at hl
      | ok q =>
        obtain ⟨np, r2⟩ := q
        rw [hp] at hl
        simp only at hl
        cases hv : np.value with
        | none => rw [hv] at hl; simp at hl
        | some g =>
          rw [hv] at hl
          simp only [Except.ok.injEq, Prod.mk.injEq] at hl
          refine ⟨np.text, ?_, ?_⟩
          · rw [(lexNumberParts_spec _ _ _ hp).1, ← h.2, hl.2]
          · rw [← h.1]; exact IsValue.number _ (lexNumberParts_sound _ _ _ hp)
  simp only [h2, Bool.false_eq_true, if_false] at h
  by_cases h3 : "true".data.isPrefixOf (c :: r) = true
  · simp only [h3, if_true, Except.ok.injEq, Prod.mk.injEq] at h
    refine ⟨"true".data, ?_, ?_⟩
    · rw [← h.2]; exact isPrefixOf_split _ _ h3
    · rw [← h.1]; exact IsValue.true
  simp only [h3, Bool.false_eq_true, if_false] at h
  by_cases h4 : "false".data.isPrefixOf (c :: r) = true
  · simp only [h4, if_true, Except.ok.injEq, Prod.mk.injEq] at h
    refine ⟨"false".data, ?_, ?_⟩
    · rw [← h.2]; exact isPrefixOf_split _ _ h4
    · rw [← h.1]; exact IsValue.false
  simp only [h4, Bool.false_eq_true, if_false] at h
  by_cases h5 : "null".data.isPrefixOf (c :: r) = true
  · simp only [h5, if_true, Except.ok.injEq, Prod.mk.injEq] at h
    refine ⟨"null".data, ?_, ?_⟩
    · rw [← h.2]; exact isPrefixOf_split _ _ h5
    · rw [← h.1]; exact IsValue.null
  simp only [h5, Bool.false_eq_true, if_false] at h
  split at h <;> cases h

/-- An object key the parser accepts is a JSON string followed by a colon, with
optional whitespace around the string. -/
theorem readKey_sound (cs : List Char) (k : String) (rest : List Char)
    (h : readKey cs = .ok (k, rest)) :
    ∃ w1 key w2, cs = w1 ++ '"' :: (key ++ '"' :: (w2 ++ ':' :: rest)) ∧ IsWs w1 ∧
      IsStringBody key ∧ IsWs w2 := by
  unfold readKey at h
  obtain ⟨w1, hw1, hws1⟩ := skipWs_spec cs
  cases hs : skipWs cs with
  | nil => rw [hs] at h; simp at h
  | cons q r =>
    rw [hs] at h hw1
    simp only at h
    by_cases hq : (q != '"') = true
    · simp [hq] at h
    simp only [hq, Bool.false_eq_true, if_false] at h
    have hq1 : q = '"' := by simpa using hq
    cases hl : lexString (r.length + 1) r [] with
    | error e => rw [hl] at h; simp at h
    | ok p =>
      obtain ⟨s, r1⟩ := p
      rw [hl] at h
      simp only at h
      obtain ⟨key, hkey, hsb⟩ := lexString_sound _ _ _ _ _ hl
      obtain ⟨w2, hw2, hws2⟩ := skipWs_spec r1
      cases hs2 : skipWs r1 with
      | nil => rw [hs2] at h; simp at h
      | cons c r2 =>
        rw [hs2] at h hw2
        simp only at h
        by_cases hc : (c != ':') = true
        · simp [hc] at h
        simp only [hc, Bool.false_eq_true, if_false, Except.ok.injEq, Prod.mk.injEq] at h
        have hc1 : c = ':' := by simpa using hc
        refine ⟨w1, key, w2, ?_, hws1, hsb, hws2⟩
        rw [hw1, hq1, hkey, hw2, hc1, h.2]

/-- Soundness of the parser: what it consumes for a value is optional whitespace and a
JSON value of the kind of the result; for the rest of an array or an object, the
elements or members up to the closing bracket. -/
theorem parse_sound (n : Nat) : ∀ (d : Nat) (cs : List Char) (v : Json) (rest : List Char),
    (parse n d .value cs = .ok (v, rest) →
      ∃ w t, cs = w ++ (t ++ rest) ∧ IsWs w ∧ IsValue v.kind t) ∧
    (∀ acc, parse n d (.elems acc) cs = .ok (v, rest) →
      ∃ t, cs = t ++ ']' :: rest ∧ IsElements t ∧ v.kind = .array) ∧
    (∀ acc, parse n d (.members acc) cs = .ok (v, rest) →
      ∃ t, cs = t ++ '}' :: rest ∧ IsMembers t ∧ v.kind = .object) := by
  induction n with
  | zero =>
    intro d cs v rest
    refine ⟨?_, ?_, ?_⟩
    · intro h; simp [parse] at h
    · intro acc h; simp [parse] at h
    · intro acc h; simp [parse] at h
  | succ n ih =>
    intro d cs v rest
    refine ⟨?_, ?_, ?_⟩
    · intro h
      rw [parse_value_succ] at h
      obtain ⟨w, hw, hws⟩ := skipWs_spec cs
      cases hs : skipWs cs with
      | nil => rw [hs] at h; simp at h
      | cons c r =>
        rw [hs] at h hw
        simp only at h
        by_cases h1 : (c == '{') = true
        · have hc : c = '{' := by simpa using h1
          simp only [h1, if_true] at h
          by_cases hd : maxNestingDepth < d + 1
          · simp [hd] at h
          simp only [hd, if_false] at h
          obtain ⟨w1, hw1, hws1⟩ := skipWs_spec r
          cases hs1 : skipWs r with
          | nil => rw [hs1] at h; simp at h
          | cons c1 r1 =>
            rw [hs1] at h hw1
            simp only at h
            by_cases h2 : (c1 == '}') = true
            · have hc1 : c1 = '}' := by simpa using h2
              simp only [h2, if_true, Except.ok.injEq, Prod.mk.injEq] at h
              refine ⟨w, '{' :: (w1 ++ ['}']), ?_, hws, ?_⟩
              · rw [hw, hc, hw1, hc1, h.2]; simp
              · rw [← h.1]; exact IsValue.emptyObject w1 hws1
            · simp only [h2, Bool.false_eq_true, if_false] at h
              obtain ⟨t, ht, hm, hk⟩ := (ih (d + 1) r v rest).2.2 [] h
              refine ⟨w, '{' :: (t ++ ['}']), ?_, hws, ?_⟩
              · rw [hw, hc, ht]; simp
              · rw [hk]; exact IsValue.object t hm
        simp only [h1, Bool.false_eq_true, if_false] at h
        by_cases h3 : (c == '[') = true
        · have hc : c = '[' := by simpa using h3
          simp only [h3, if_true] at h
          by_cases hd : maxNestingDepth < d + 1
          · simp [hd] at h
          simp only [hd, if_false] at h
          obtain ⟨w1, hw1, hws1⟩ := skipWs_spec r
          cases hs1 : skipWs r with
          | nil => rw [hs1] at h; simp at h
          | cons c1 r1 =>
            rw [hs1] at h hw1
            simp only at h
            by_cases h2 : (c1 == ']') = true
            · have hc1 : c1 = ']' := by simpa using h2
              simp only [h2, if_true, Except.ok.injEq, Prod.mk.injEq] at h
              refine ⟨w, '[' :: (w1 ++ [']']), ?_, hws, ?_⟩
              · rw [hw, hc, hw1, hc1, h.2]; simp
              · rw [← h.1]; exact IsValue.emptyArray w1 hws1
            · simp only [h2, Bool.false_eq_true, if_false] at h
              obtain ⟨t, ht, hm, hk⟩ := (ih (d + 1) r v rest).2.1 [] h
              refine ⟨w, '[' :: (t ++ [']']), ?_, hws, ?_⟩
              · rw [hw, hc, ht]; simp
              · rw [hk]; exact IsValue.array t hm
        simp only [h3, Bool.false_eq_true, if_false] at h
        obtain ⟨t, ht, hv⟩ := parseScalar_sound c r v rest h
        exact ⟨w, t, by rw [hw, ht], hws, hv⟩
    · intro acc h
      rw [parse_elems_succ] at h
      cases hp : parse n d .value cs with
      | error e => rw [hp] at h; simp at h
      | ok p =>
        obtain ⟨v1, r⟩ := p
        rw [hp] at h
        simp only at h
        obtain ⟨w1, t1, hcs, hws1, hv1⟩ := (ih d cs v1 r).1 hp
        obtain ⟨w2, hw2, hws2⟩ := skipWs_spec r
        cases hs : skipWs r with
        | nil => rw [hs] at h; simp at h
        | cons c r1 =>
          rw [hs] at h hw2
          simp only at h
          by_cases h1 : (c == ',') = true
          · have hc : c = ',' := by simpa using h1
            simp only [h1, if_true] at h
            obtain ⟨t, ht, hm, hk⟩ := (ih d r1 v rest).2.1 _ h
            refine ⟨w1 ++ (t1 ++ (w2 ++ ',' :: t)), ?_, IsElements.more w1 _ t1 w2 t hws1 hv1 hws2 hm, hk⟩
            rw [hcs, hw2, hc, ht]; simp
          simp only [h1, Bool.false_eq_true, if_false] at h
          by_cases h2 : (c == ']') = true
          · have hc : c = ']' := by simpa using h2
            simp only [h2, if_true, Except.ok.injEq, Prod.mk.injEq] at h
            refine ⟨w1 ++ (t1 ++ w2), ?_, IsElements.one w1 _ t1 w2 hws1 hv1 hws2, ?_⟩
            · rw [hcs, hw2, hc, h.2]; simp
            · rw [← h.1]; rfl
          · simp [h2] at h
    · intro acc h
      rw [parse_members_succ] at h
      cases hk : readKey cs with
      | error e => rw [hk] at h; simp at h
      | ok p0 =>
        obtain ⟨k, r2⟩ := p0
        rw [hk] at h
        simp only at h
        obtain ⟨w1, key, w2, hcs0, hws1, hkey, hws2⟩ := readKey_sound _ _ _ hk
        cases hp : parse n d .value r2 with
        | error e => rw [hp] at h; simp at h
        | ok p =>
          obtain ⟨v1, r3⟩ := p
          rw [hp] at h
          simp only at h
          obtain ⟨w3, t1, hcs, hws3, hv1⟩ := (ih d r2 v1 r3).1 hp
          obtain ⟨w4, hw4, hws4⟩ := skipWs_spec r3
          cases hs : skipWs r3 with
          | nil => rw [hs] at h; simp at h
          | cons c r4 =>
            rw [hs] at h hw4
            simp only at h
            by_cases h1 : (c == ',') = true
            · have hc : c = ',' := by simpa using h1
              simp only [h1, if_true] at h
              obtain ⟨t, ht, hm, hkd⟩ := (ih d r4 v rest).2.2 _ h
              refine ⟨_, ?_, IsMembers.more w1 key w2 w3 _ t1 w4 t hws1 hkey hws2 hws3 hv1 hws4 hm, hkd⟩
              rw [hcs0, hcs, hw4, hc, ht]; simp
            simp only [h1, Bool.false_eq_true, if_false] at h
            by_cases h2 : (c == '}') = true
            · have hc : c = '}' := by simpa using h2
              simp only [h2, if_true, Except.ok.injEq, Prod.mk.injEq] at h
              refine ⟨_, ?_, IsMembers.one w1 key w2 w3 _ t1 w4 hws1 hkey hws2 hws3 hv1 hws4, ?_⟩
              · rw [hcs0, hcs, hw4, hc, h.2]; simp
              · rw [← h.1]; rfl
            · simp [h2] at h

/-- A JSON value starts with a character that is not whitespace and that tells its
kind. -/
theorem value_head (k : JsonKind) (t : List Char) (h : IsValue k t) :
    ∃ c r, t = c :: r ∧ isSpace c = false ∧ kindOfStart c = some k := by
  cases h with
  | null => exact ⟨'n', _, rfl, by decide, by decide⟩
  | true => exact ⟨'t', _, rfl, by decide, by decide⟩
  | false => exact ⟨'f', _, rfl, by decide, by decide⟩
  | number t hn =>
    obtain ⟨c, r, ht, hc⟩ := IsNumber.head t hn
    refine ⟨c, r, ht, ?_, ?_⟩
    · exact numStart_not_space c hc
    · unfold kindOfStart
      have a1 : (c == '{') = false := by
        rcases (Bool.or_eq_true _ _).mp hc with e | e
        · have : c = '-' := by simpa using e
          rw [this]; decide
        · by_contra hx
          have : c = '{' := by simpa using hx
          rw [this] at e; exact absurd e (by decide)
      have a2 : (c == '[') = false := by
        rcases (Bool.or_eq_true _ _).mp hc with e | e
        · have : c = '-' := by simpa using e
          rw [this]; decide
        · by_contra hx
          have : c = '[' := by simpa using hx
          rw [this] at e; exact absurd e (by decide)
      have a3 : (c == '"') = false := by
        rcases (Bool.or_eq_true _ _).mp hc with e | e
        · have : c = '-' := by simpa using e
          rw [this]; decide
        · by_contra hx
          have : c = '"' := by simpa using hx
          rw [this] at e; exact absurd e (by decide)
      simp only [a1, a2, a3, hc, Bool.false_eq_true, if_false, if_true]
  | string s _ => exact ⟨'"', _, rfl, by decide, by decide⟩
  | emptyArray w _ => exact ⟨'[', _, rfl, by decide, by decide⟩
  | array t _ => exact ⟨'[', _, rfl, by decide, by decide⟩
  | emptyObject w _ => exact ⟨'{', _, rfl, by decide, by decide⟩
  | object t _ => exact ⟨'{', _, rfl, by decide, by decide⟩

/-- The start of a body that begins with a JSON value, after its whitespace. -/
theorem skipWs_of_prefix (k : JsonKind) (pre rest : List Char) (h : IsJsonPrefix k pre) :
    ∃ c r, skipWs (pre ++ rest) = c :: r ∧ kindOfStart c = some k := by
  obtain ⟨w, v, hpre, hw, hv⟩ := h
  obtain ⟨c, r, hvc, hsp, hk⟩ := value_head k v hv
  refine ⟨c, r ++ rest, ?_, hk⟩
  rw [hpre, hvc, List.append_assoc, List.cons_append]
  exact skipWs_ws_append w c (r ++ rest) hw hsp

/-- The kind of the value the parser returns is the kind its first character tells. -/
theorem parse_kind (n d : Nat) (cs : List Char) (v : Json) (rest : List Char)
    (h : parse n d .value cs = .ok (v, rest)) :
    ∃ c r, skipWs cs = c :: r ∧ kindOfStart c = some v.kind := by
  obtain ⟨w, t, hcs, hw, hv⟩ := (parse_sound n d cs v rest).1 h
  have hp : IsJsonPrefix v.kind (w ++ t) := ⟨w, t, rfl, hw, hv⟩
  have := skipWs_of_prefix v.kind (w ++ t) rest hp
  rw [List.append_assoc, ← hcs] at this
  exact this

/-- The decoder stores nothing but an object or `null`: any other first value is an
error. -/
theorem decodeBody_kind (body : String) (k : JsonKind) (h : FirstValueIs k body)
    (hk : k ≠ .object) (hn : k ≠ .null) : ∃ e, decodeBody body = .error e := by
  obtain ⟨pre, rest, hb, hp⟩ := h
  obtain ⟨c, r, hs, hc⟩ := skipWs_of_prefix k pre rest hp
  rw [← hb] at hs
  unfold decodeBody readValue
  cases hparse : parse (2 * body.data.length + 1) 0 .value body.data with
  | error e => exact ⟨e, rfl⟩
  | ok p =>
    obtain ⟨v, rest1⟩ := p
    obtain ⟨c1, r1, hs1, hc1⟩ := parse_kind _ _ _ _ _ hparse
    rw [hs] at hs1
    injection hs1 with e1 _
    rw [← e1, hc] at hc1
    injection hc1 with hkind
    simp only
    cases v with
    | null => exact absurd hkind hn
    | obj kvs => exact absurd hkind hk
    | bool b => exact ⟨_, rfl⟩
    | num f => exact ⟨_, rfl⟩
    | str s => exact ⟨_, rfl⟩
    | arr xs => exact ⟨_, rfl⟩

/-- The decoder reports an error on a body no initial part of which is a JSON
value. -/
theorem decodeBody_malformed (body : String) (h : Malformed body) :
    ∃ e, decodeBody body = .error e := by
  unfold decodeBody readValue
  cases hparse : parse (2 * body.data.length + 1) 0 .value body.data with
  | error e => exact ⟨e, rfl⟩
  | ok p =>
    obtain ⟨v, rest⟩ := p
    obtain ⟨w, t, hcs, hw, hv⟩ := (parse_sound _ _ _ _ _).1 hparse
    exact absurd ⟨w, t, rfl, hw, hv⟩ (h v.kind (w ++ t) rest (by rw [hcs, List.append_assoc]))

/-! ## The handler and the middleware -/

/-- A request reaches `client.Do` only after the body was read, decoded to an object,
re-serialised with `creator_id` set, and `http.NewRequest` succeeded; it is then built
from exactly these parts. -/
theorem handler_dispatch (W : World) (u D : String) (r : InRequest) (req : ProxyReq)
    (h : req ∈ (handler W u D r).upstream) :
    ∃ body B mb, r.body = some body ∧ decodeBody body = .ok (some B) ∧
      W.marshal (mapSet B "creator_id" (Json.str D)) = some mb ∧
      W.newRequestOk r.method (targetURL u r.path) = true ∧
      (handler W u D r).upstream = [req] ∧
      req = ⟨r.method, targetURL u r.path, proxyHeader r.header D mb, mb⟩ := by
  cases hb : r.body with
  | none => simp [handler, hb] at h
  | some body =>
    cases hd : decodeBody body with
    | error e => simp [handler, hb, hd] at h
    | ok m =>
      cases m with
      | none => simp [handler, hb, hd] at h
      | some B =>
        cases hm : W.marshal (mapSet B "creator_id" (Json.str D)) with
        | none => simp [handler, hb, hd, hm] at h
        | some mb =>
          cases hn : W.newRequestOk r.method (targetURL u r.path) with
          | false => simp [handler, hb, hd, hm, hn] at h
          | true =>
            cases hc : W.clientDo ⟨r.method, targetURL u r.path, proxyHeader r.header D mb, mb⟩ with
            | none =>
              simp only [handler, hb, hd, hm, hn, hc, Bool.not_true, Bool.false_eq_true,
                if_false, List.mem_singleton] at h
              refine ⟨body, B, mb, rfl, hd, hm, rfl, ?_, h⟩
              simp [handler, hb, hd, hm, hn, hc, h]
            | some resp =>
              simp only [handler, hb, hd, hm, hn, hc, Bool.not_true, Bool.false_eq_true,
                if_false, List.mem_singleton] at h
              refine ⟨body, B, mb, rfl, hd, hm, rfl, ?_, h⟩
              simp [handler, hb, hd, hm, hn, hc, h]

/-- `TrimPrefix` removes a leading `/api` once. -/
theorem TrimPrefix_api_append (rest : String) : TrimPrefix ("/api" ++ rest) "/api" = rest := by
  unfold TrimPrefix
  have h1 : ("/api" ++ rest).data = '/' :: 'a' :: 'p' :: 'i' :: rest.data := by
    simp [String.data_append]
  have h2 : ("/api" : String).data = ['/', 'a', 'p', 'i'] := rfl
  rw [h1, h2]
  simp

/-- `TrimPrefix` leaves a path that does not start with `/api` alone. -/
theorem TrimPrefix_api_other (p : String) (h : ∀ rest : String, p ≠ "/api" ++ rest) :
    TrimPrefix p "/api" = p := by
  unfold TrimPrefix
  split
  · rename_i hp
    exfalso
    have h2 : ("/api" : String).data = ['/', 'a', 'p', 'i'] := rfl
    rw [h2] at hp
    obtain ⟨t, ht⟩ := List.isPrefixOf_iff_prefix.mp hp
    apply h ⟨t⟩
    apply String.ext
    simp [String.data_append, ← ht]
  · rfl

namespace Header

theorem raw_nil (k : String) : raw [] k = [] := rfl

theorem raw_cons (k0 : String) (vs0 : List String) (t : Header) (k : String) :
    raw ((k0, vs0) :: t) k = if k = k0 then vs0 else raw t k := by
  unfold raw
  by_cases hk : k = k0
  · subst hk; simp [List.lookup]
  · have : (k == k0) = false := by simpa using hk
    simp [List.lookup, this, hk]

end Header

set_option maxRecDepth 100000 in
theorem exampleRequest_upstream :
    (handler exampleWorld "http://up" "dev-1" exampleRequest).upstream = [exampleProxyReq] := by
  decide

theorem exampleProxyReq_mem :
    exampleProxyReq ∈ (handler exampleWorld "http://up" "dev-1" exampleRequest).upstream := by
  rw [exampleRequest_upstream]
  exact List.mem_singleton.mpr rfl

/-- C3: the URL of every request the handler dispatches is the server URL followed by
the inbound path, from which a leading `/api` is removed once when it is there and
which is left as it is otherwise. -/
theorem C3_target_url (W : World) (u D : String) (r : InRequest) (req : ProxyReq)
    (h : req ∈ (handler W u D r).upstream) :
    req.url = u ++ TrimPrefix r.path "/api" ∧
    (∀ rest : String, r.path = "/api" ++ rest → req.url = u ++ rest) ∧
    ((∀ rest : String, r.path ≠ "/api" ++ rest) → req.url = u ++ r.path) ∧
    TrimPrefix "/api/api/x" "/api" = "/api/x" ∧ TrimPrefix "/apifoo" "/api" = "foo" := by
  obtain ⟨body, B, mb, -, -, -, -, -, hreq⟩ := handler_dispatch W u D r req h
  have hurl : req.url = u ++ TrimPrefix r.path "/api" := by rw [hreq]; rfl
  refine ⟨hurl, ?_, ?_, by decide, by decide⟩
  · intro rest hp
    rw [hurl, hp, TrimPrefix_api_append]
  · intro hp
    rw [hurl, TrimPrefix_api_other r.path hp]

theorem C3_target_url_witness :
    exampleProxyReq ∈ (handler exampleWorld "http://up" "dev-1" exampleRequest).upstream ∧
    exampleProxyReq.url = "http://up" ++ TrimPrefix exampleRequest.path "/api" :=
  ⟨exampleProxyReq_mem,
    (C3_target_url exampleWorld "http://up" "dev-1" exampleRequest exampleProxyReq
      exampleProxyReq_mem).1⟩

/-- C10: two inbound requests with the same path are dispatched to the same URL, the
server URL followed by the stripped path, whatever their raw query strings are. -/
theorem C10_query_not_forwarded (W : World) (u D : String) (r1 r2 : InRequest)
    (req1 req2 : ProxyReq) (hp : r1.path = r2.path)
    (h1 : req1 ∈ (handler W u D r1).upstream) (h2 : req2 ∈ (handler W u D r2).upstream) :
    req1.url = req2.url ∧ req1.url = u ++ TrimPrefix r1.path "/api" := by
  obtain ⟨_, _, _, -, -, -, -, -, e1⟩ := handler_dispatch W u D r1 req1 h1
  obtain ⟨_, _, _, -, -, -, -, -, e2⟩ := handler_dispatch W u D r2 req2 h2
  have u1 : req1.url = u ++ TrimPrefix r1.path "/api" := by rw [e1]; rfl
  have u2 : req2.url = u ++ TrimPrefix r2.path "/api" := by rw [e2]; rfl
  exact ⟨by rw [u1, u2, hp], u1⟩

set_option maxRecDepth 100000 in
theorem exampleProxyReq_mem_otherQuery :
    exampleProxyReq ∈
      (handler exampleWorld "http://up" "dev-1" exampleRequestOtherQuery).upstream := by
  decide

theorem C10_query_not_forwarded_witness :
    exampleRequest.rawQuery ≠ exampleRequestOtherQuery.rawQuery ∧
    exampleProxyReq.url = "http://up" ++ TrimPrefix exampleRequest.path "/api" :=
  ⟨by decide,
    (C10_query_not_forwarded exampleWorld "http://up" "dev-1" exampleRequest
      exampleRequestOtherQuery exampleProxyReq exampleProxyReq rfl
      exampleProxyReq_mem exampleProxyReq_mem_otherQuery).2⟩

/-- A key that reads as a non-empty list is in the map. -/
theorem Header.mem_keys_of_raw_ne (H : Header) (k : String) (h : Header.raw H k ≠ []) :
    k ∈ Header.keys H := by
  induction H with
  | nil => exact absurd (Header.raw_nil k) h
  | cons hd t ih =>
    obtain ⟨k0, vs0⟩ := hd
    rw [Header.raw_cons] at h
    by_cases e : k = k0
    · simp [Header.keys, e]
    · simp only [e, if_false] at h
      have := ih h
      simp only [Header.keys, List.map_cons, List.mem_cons] at this ⊢
      exact Or.inr this

namespace ResponseWriter

end ResponseWriter

/-- A body that starts with a character that begins no JSON value is malformed. -/
theorem malformed_of_start (body : String) (c : Char) (t : List Char)
    (hb : body.data = c :: t) (hsp : isSpace c = false) (hk : kindOfStart c = none) :
    Malformed body := by
  intro k pre rest hpre hp
  obtain ⟨c1, r1, hs, hk1⟩ := skipWs_of_prefix k pre rest hp
  rw [← hpre, hb] at hs
  simp only [skipWs, hsp, Bool.false_eq_true, if_false] at hs
  injection hs with e1 _
  rw [← e1, hk] at hk1
  cases hk1

/-- The empty body is malformed: a JSON value has at least one character. -/
theorem malformed_empty : Malformed "" := by
  intro k pre rest hpre hp
  obtain ⟨c1, r1, hs, -⟩ := skipWs_of_prefix k pre rest hp
  rw [← hpre] at hs
  cases hs

/-- C2 as amended: a body that is empty, or malformed JSON (no initial part of it is a
JSON value), or whose first JSON value is an array, a string, a number or a boolean,
is answered with 400 "Invalid request body" and nothing is dispatched. -/
theorem C2_invalid_body (W : World) (u D : String) (r : InRequest) (body : String)
    (hb : r.body = some body)
    (hbad : body = "" ∨ Malformed body ∨
      (∃ k, FirstValueIs k body ∧
        (k = .array ∨ k = .string ∨ k = .number ∨ k = .boolean))) :
    handler W u D r = ⟨false, [], httpError "Invalid request body" 400⟩ ∧
    (ResponseWriter.fresh.run (handler W u D r).calls).status = some 400 ∧
    statusCalls (handler W u D r).calls = [400] ∧
    (handler W u D r).upstream = [] := by
  have herr : ∃ e, decodeBody body = .error e := by
    rcases hbad with h | h | ⟨k, h, hk⟩
    · exact ⟨.eof, by rw [h]; rfl⟩
    · exact decodeBody_malformed body h
    · apply decodeBody_kind body k h
      · rcases hk with e | e | e | e <;> rw [e] <;> decide
      · rcases hk with e | e | e | e <;> rw [e] <;> decide
  obtain ⟨e, he⟩ := herr
  have hval : handler W u D r = ⟨false, [], httpError "Invalid request body" 400⟩ := by
    simp [handler, hb, he]
  rw [hval]
  exact ⟨rfl, rfl, rfl, rfl⟩

theorem C2_invalid_body_witness :
    handler exampleWorld "http://up" "dev-1" { exampleRequest with body := some "[1,2]" }
      = ⟨false, [], httpError "Invalid request body" 400⟩ :=
  (C2_invalid_body exampleWorld "http://up" "dev-1"
    { exampleRequest with body := some "[1,2]" } "[1,2]" rfl
    (Or.inr (Or.inr ⟨.array,
      ⟨"[1,2]".data, [], rfl, [], "[1,2]".data, rfl, IsWs.nil,
        IsValue.array ['1', ',', '2']
          (IsElements.more [] .number ['1'] [] ['2'] IsWs.nil
            (IsValue.number ['1'] ⟨⟨false, ['1'], [], []⟩, rfl,
              Or.inr ⟨⟨by decide, by decide⟩, by decide⟩, Or.inl rfl, Or.inl rfl⟩)
            IsWs.nil
            (IsElements.one [] .number ['2'] [] IsWs.nil
              (IsValue.number ['2'] ⟨⟨false, ['2'], [], []⟩, rfl,
                Or.inr ⟨⟨by decide, by decide⟩, by decide⟩, Or.inl rfl, Or.inl rfl⟩)
              IsWs.nil))⟩,
      Or.inl rfl⟩))).1

set_option maxRecDepth 100000 in
/-- C2 fails as stated: an object followed by bytes that are not JSON is accepted and
forwarded; the decoder stops at the closing brace of the first value. -/
theorem C2_counterexample :
    (handler exampleWorld "http://up" "dev-1"
        { exampleRequest with body := some "\x7b\"a\":1\x7dxyz" }).upstream
      = [exampleProxyReq] ∧
    (ResponseWriter.fresh.run (handler exampleWorld "http://up" "dev-1"
        { exampleRequest with body := some "\x7b\"a\":1\x7dxyz" }).calls).status
      = some 201 := by
  decide

/-- C7 fails on the body `null`: `Decode` stores it without an error and leaves
`requestData` nil, the write `requestData["creator_id"] = deviceID` panics, and the
handler ends without a status and without a dispatch. -/
theorem C7_null_body_panics (W : World) (u D method path query : String) (hdr : Header) :
    handler W u D ⟨method, path, query, hdr, some "null"⟩ = ⟨true, [], []⟩ ∧
    (ResponseWriter.fresh.run
      (handler W u D ⟨method, path, query, hdr, some "null"⟩).calls).status = none ∧
    statusCalls (handler W u D ⟨method, path, query, hdr, some "null"⟩).calls = [] := by
  have hd : decodeBody "null" = .ok none := rfl
  have hval : handler W u D ⟨method, path, query, hdr, some "null"⟩ = ⟨true, [], []⟩ := by
    simp [handler, hd]
  rw [hval]
  exact ⟨rfl, rfl, rfl⟩

/-- Running a handler through the shim drives the wrapped writer exactly as running
the handler on the wrapped writer does. -/
theorem shim_run {σ : Type} (S : Sink σ) (p : Prog) (s : σ) (st : Nat) :
    (p.run (shim S) ⟨s, st⟩).w = p.run S s := by
  induction p generalizing s st with
  | done => rfl
  | header f k ih => exact ih _ _ _
  | write b k ih => exact ih _ _ _
  | writeHeader c k ih => exact ih _ _

/-- C9: the writer `Logging(next)` was given ends in the state, and with the journal of
received calls, that `next` alone leaves it in; `Header` of the shim yields the map of
the wrapped writer and `Write` of the shim returns what the wrapped writer returned. -/
theorem C9_transparent {σ : Type} (S : Sink σ) (next : InRequest → Prog)
    (requestID remoteAddr : String) (duration : Nat) (r : InRequest) (s : σ) :
    (Logging next S requestID remoteAddr duration r s).2 = (next r).run S s ∧
    (Logging next (traced S) requestID remoteAddr duration r (s, [])).2
      = (next r).run (traced S) (s, []) ∧
    (∀ rw : responseWriter σ, ((shim S).Header rw).1 = (S.Header rw.w).1 ∧
      ((shim S).Header rw).2.w = (S.Header rw.w).2) ∧
    (∀ (rw : responseWriter σ) (b : String), ((shim S).Write rw b).1 = (S.Write rw.w b).1 ∧
      ((shim S).Write rw b).2.w = (S.Write rw.w b).2) ∧
    (∀ (rw : responseWriter σ) (c : Nat),
      ((shim S).WriteHeader rw c).w = S.WriteHeader rw.w c) := by
  refine ⟨?_, ?_, fun _ => ⟨rfl, rfl⟩, fun _ _ => ⟨rfl, rfl⟩, fun _ _ => rfl⟩
  · exact shim_run S (next r) s 200
  · exact shim_run (traced S) (next r) (s, []) 200

/-- The status `Logging` reports is the code of the last `WriteHeader` call the wrapped
writer received, and the initial value when there was none. -/
theorem shim_status_last {σ : Type} (S : Sink σ) (p : Prog) (s : σ) (j : List SinkCall)
    (st : Nat) :
    ∃ calls, (p.run (traced S) (s, j)).2 = j ++ calls ∧
      (p.run (shim S) ⟨s, st⟩).status = lastWriteHeader st calls := by
  induction p generalizing s j st with
  | done => exact ⟨[], by simp [Prog.run], rfl⟩
  | header f k ih =>
    obtain ⟨calls, h1, h2⟩ := ih (f (S.Header s).1)
      (S.mutate (S.Header s).2 (f (S.Header s).1)) (j ++ [.Header]) st
    refine ⟨.Header :: calls, ?_, ?_⟩
    · simpa [Prog.run, traced] using h1
    · simpa [Prog.run, shim, lastWriteHeader] using h2
  | write b k ih =>
    obtain ⟨calls, h1, h2⟩ := ih (S.Write s b).1 (S.Write s b).2 (j ++ [.Write b]) st
    refine ⟨.Write b :: calls, ?_, ?_⟩
    · simpa [Prog.run, traced] using h1
    · simpa [Prog.run, shim, lastWriteHeader] using h2
  | writeHeader c k ih =>
    obtain ⟨calls, h1, h2⟩ := ih (S.WriteHeader s c) (j ++ [.WriteHeader c]) c
    refine ⟨.WriteHeader c :: calls, ?_, ?_⟩
    · simpa [Prog.run, traced] using h1
    · simpa [Prog.run, shim, lastWriteHeader] using h2

/-- C8 fails on a handler that calls `WriteHeader` twice: the writer sends 404, the
code of the first call, and the "Request completed" record reports 500, the code of
the last one; and on a handler that writes before `WriteHeader(500)`: the writer
sends 200 and the record reports 500. -/
theorem C8_logged_status_is_last :
    (Logging twoStatusHandler serverSink "id" "addr" 0 exampleRequest
        ResponseWriter.fresh).1.getLast? = some (.completed "id" 500 0) ∧
    (Logging twoStatusHandler serverSink "id" "addr" 0 exampleRequest
        ResponseWriter.fresh).2.status = some 404 ∧
    (Logging lateStatusHandler serverSink "id" "addr" 0 exampleRequest
        ResponseWriter.fresh).1.getLast? = some (.completed "id" 500 0) ∧
    (Logging lateStatusHandler serverSink "id" "addr" 0 exampleRequest
        ResponseWriter.fresh).2.status = some 200 := by
  decide

set_option maxRecDepth 100000 in
/-- Numbers are forwarded as `encoding/json` prints the `float64` they were read as:
the body `{"a":1.0}` goes out with `"a":1`. -/
theorem forwarded_number :
    (handler exampleWorld "http://up" "dev-1"
      { exampleRequest with body := some "\x7b\"a\":1.0\x7d" }).upstream.map
        (fun q => q.body)
      = ["\x7b\"a\":1,\"creator_id\":\"dev-1\"\x7d"] := by
  decide

set_option maxRecDepth 100000 in
/-- The literal `1e2` is read as the `float64` that is written `100`, and
`9007199254740993` as the one that is written `9007199254740992`. -/
theorem reprinted_numbers :
    (lexNumber "1e2".data).toOption = some (⟨false, 7036874417766400, -46⟩, []) ∧
    formatFloat ⟨false, 7036874417766400, -46⟩ = "100".data ∧
    (lexNumber "9007199254740993".data).toOption = some (⟨false, 4503599627370496, 1⟩, []) ∧
    formatFloat ⟨false, 4503599627370496, 1⟩ = "9007199254740992".data := by
  decide

end ParityRunner
